import Mathlib

/-!
Verification of the stream-transform pipeline engine of the pyshellscript
repository (source: src/tests/experiments/string_process_std_in_out_test.py).

The engine is embedded shallowly:

* `StrProcState` mirrors the readiness enum with its numeric values and the
  two predicates `has_output` (value < 100) and `can_input` (value >= 100).
* `StrProc` is a closed tagged variant covering the concrete stage classes:
  - `transit f slot` covers `StrProcTransit` and its transforming
    subclasses (`StrProcUpper`, `StrProcRemoveControlChars`,
    `StrProcReplaceTabs`, and `StrProcPrint`, whose print side effect is
    an opaque observation and whose data transform is the identity);
  - `printFinal slot` covers `StrProcPrintFinal` (sink, prints only);
  - `null slot` covers `StrProcNull` (sink, discards);
  - `buffer buf` covers `StrBuffer` (unbounded FIFO queue).
* Exceptions become an error type `PErr`; the two `BrokenPipeError` raises
  of the single-slot stage and the deadlock raise of the pipeline are kept
  apart from the `IndexError` that `list.pop(0)` raises on an empty list.
* `StrProcPipeProcess` methods (`__init__`, `str_pipe_process`, `input`,
  `output`, `eof`, `state`) are translated as functions over a stage list.
  They are written once, polymorphic over an operations record `Ops`,
  exactly as the Python methods are polymorphic over the duck-typed stage
  objects; `pipeOps` instantiates them for the flat stage variant and
  `stage2Ops` for stage lists that may contain a nested pipeline as one
  stage (`Stage2`), which the source supports through `StrProcFlags.has_sub_proc`.
* The unbounded `while` loop of `str_pipe_process` is run on explicit fuel
  (`drainGo`); `fuelBound` computes a bound that the termination theorem
  proves sufficient, so the fuel-exhaustion branch is dead code for every
  pipeline the claims quantify over.
-/

/-- Error kinds. The Python source raises `BrokenPipeError` in three places
(input on a full single-slot stage, output on an empty single-slot stage,
pipeline state in a stuck configuration) and lets `list.pop(0)` raise
`IndexError` on an empty `StrBuffer`. `fuelExhausted` is an artifact of the
fuel-based embedding of the drain loop; theorems show it unreachable. -/
inductive PErr where
  | brokenPipeInputFull
  | brokenPipeOutputEmpty
  | brokenPipeDeadlock
  | indexError
  | fuelExhausted
deriving DecidableEq, Repr

/-- Which errors the specification calls Backpressure: the two
`BrokenPipeError` raises of a stage (full input slot, empty output). -/
def PErr.is_backpressure : PErr → Bool
  | .brokenPipeInputFull => true
  | .brokenPipeOutputEmpty => true
  | _ => false

/-- The readiness enum `StrProcState` of the source, with its numeric
values 0, 1, 100, 101. -/
inductive StrProcState where
  | has_output_default
  | has_output_and_can_input
  | can_input_default
  | can_input_and_parsing_in_process
deriving DecidableEq, Repr

/-- Numeric value of each enum member, as in the source. -/
def StrProcState.val : StrProcState → Nat
  | .has_output_default => 0
  | .has_output_and_can_input => 1
  | .can_input_default => 100
  | .can_input_and_parsing_in_process => 101

/-- Source: `return self.value < StrProcState.can_input_default.value`. -/
def StrProcState.has_output (v : StrProcState) : Bool :=
  v.val < StrProcState.can_input_default.val

/-- Source: `return self.value >= StrProcState.can_input_default.value`. -/
def StrProcState.can_input (v : StrProcState) : Bool :=
  StrProcState.can_input_default.val ≤ v.val

/-- The capability flags enum `StrProcFlags`. -/
inductive StrProcFlags where
  | is_transit_1_by_1
  | is_infinity_input
  | is_infinity_output
  | input_buffer_has_memory_limit
  | no_output
  | has_sub_proc
deriving DecidableEq, Repr

/-- Closed variant of the concrete stage classes (see the file comment).
The `transit` transform field records the pure string function that the
subclass applies inside `input` before storing. -/
inductive StrProc where
  | transit (f : String → String) (buffer_str : Option String)
  | printFinal (buffer_str : Option String)
  | null (buffer_str : Option String)
  | buffer (buf : List String)

/-- Transform of `StrProcUpper`: `s.upper()`. -/
def upperFn (s : String) : String := s.toUpper

/-- Transform of `StrProcRemoveControlChars`: delete `chr(0)`..`chr(31)`
except tab (9), LF (10), CR (13). -/
def removeControlCharsFn (s : String) : String :=
  ⟨s.data.filter (fun c => 32 ≤ c.toNat || c.toNat = 9 || c.toNat = 10 || c.toNat = 13)⟩

/-- Transform of `StrProcReplaceTabs`: replace each tab by
`spaces_per_tab` spaces. -/
def replaceTabsFn (spaces_per_tab : Nat) (s : String) : String :=
  s.replace "\t" (String.mk (List.replicate spaces_per_tab ' '))

/-- Stage method `input`.
`StrProcTransit.input` raises `BrokenPipeError` when the slot is occupied
and otherwise stores the (transformed) item; `StrProcPrintFinal.input` and
`StrProcNull.input` consume the item without storing (the print side effect
is an opaque observation); `StrBuffer.input` appends to the queue tail. -/
def StrProc.input : StrProc → String → Except PErr StrProc
  | .transit _ (some _), _ => .error .brokenPipeInputFull
  | .transit f none, s => .ok (.transit f (some (f s)))
  | .printFinal sl, _ => .ok (.printFinal sl)
  | .null sl, _ => .ok (.null sl)
  | .buffer l, s => .ok (.buffer (l ++ [s]))

/-- Stage method `output`.
`StrProcTransit.output` raises `BrokenPipeError` on an empty slot and
otherwise clears and returns it (the sinks inherit this method);
`StrBuffer.output` is `self.buffer.pop(0)`, which raises `IndexError`
on an empty list and otherwise pops the head. -/
def StrProc.output : StrProc → Except PErr (String × StrProc)
  | .transit _ none => .error .brokenPipeOutputEmpty
  | .transit f (some v) => .ok (v, .transit f none)
  | .printFinal none => .error .brokenPipeOutputEmpty
  | .printFinal (some v) => .ok (v, .printFinal none)
  | .null none => .error .brokenPipeOutputEmpty
  | .null (some v) => .ok (v, .null none)
  | .buffer [] => .error .indexError
  | .buffer (x :: l) => .ok (x, .buffer l)

/-- Stage method `state`: `can_input_default` when the slot (resp. queue)
is empty, else `has_output_default`. The sinks inherit the transit method. -/
def StrProc.state : StrProc → StrProcState
  | .transit _ none => .can_input_default
  | .transit _ (some _) => .has_output_default
  | .printFinal none => .can_input_default
  | .printFinal (some _) => .has_output_default
  | .null none => .can_input_default
  | .null (some _) => .has_output_default
  | .buffer [] => .can_input_default
  | .buffer (_ :: _) => .has_output_default

/-- Stage method `eof`: a no-op (`pass`) for every concrete stage class. -/
def StrProc.eof (s : StrProc) : Except PErr StrProc := .ok s

/-- Static method `class_flags` of each stage class. -/
def StrProc.class_flags : StrProc → List StrProcFlags
  | .transit _ _ => [.is_transit_1_by_1]
  | .printFinal _ => [.no_output]
  | .null _ => [.no_output, .is_infinity_input]
  | .buffer _ => [.is_infinity_input, .input_buffer_has_memory_limit]

/-- Items currently buffered by a stage, in the order they would leave it. -/
def StrProc.items : StrProc → List String
  | .transit _ none => []
  | .transit _ (some v) => [v]
  | .printFinal none => []
  | .printFinal (some v) => [v]
  | .null none => []
  | .null (some v) => [v]
  | .buffer l => l

/-- Number of buffered items (used as executable fuel input). -/
def StrProc.size (s : StrProc) : Nat := s.items.length

/-- Effect of a stage on one accepted item: the stored transformed item for
a transit stage, the item itself for a buffer, nothing for a sink. -/
def StrProc.tr : StrProc → String → Option String
  | .transit f _, s => some (f s)
  | .printFinal _, _ => none
  | .null _, _ => none
  | .buffer _, s => some s

/-- True for the stage kinds whose `input` never raises, regardless of the
stored state: every kind except the single-slot transit. -/
def StrProc.accepts_any : StrProc → Bool
  | .transit _ _ => false
  | _ => true

/-- True for the order-preserving single-input/single-output stage kinds:
transit stages (identity, uppercase, strip-control-chars, tab expansion,
print-and-forward) and buffers; false for the sinks. -/
def StrProc.is_siso : StrProc → Bool
  | .transit _ _ => true
  | .buffer _ => true
  | _ => false

/-- Operations record over which the pipeline methods are written, exactly
as the Python `StrProcPipeProcess` methods are polymorphic over duck-typed
stage objects. `state` may fail because a nested pipeline used as a stage
can raise from its own `state` method. `size` and `dflt` are embedding
artifacts: `size` feeds the executable fuel bound, `dflt` is the value a
total list indexer returns out of range (the Python source would raise
there; no theorem depends on an out-of-range access). -/
structure Ops (S : Type) where
  input : S → String → Except PErr S
  output : S → Except PErr (String × S)
  state : S → Except PErr StrProcState
  eof : S → Except PErr S
  class_flags : S → List StrProcFlags
  size : S → Nat
  dflt : S
  newBuf : S

/-- The operations of the flat stage variant. -/
def pipeOps : Ops StrProc where
  input := StrProc.input
  output := StrProc.output
  state := fun s => .ok s.state
  eof := StrProc.eof
  class_flags := StrProc.class_flags
  size := StrProc.size
  dflt := .buffer []
  newBuf := .buffer []

/-- Total list indexer (`ps[i]`, with `O.dflt` out of range). -/
def getO {S : Type} (O : Ops S) : List S → Nat → S
  | [], _ => O.dflt
  | a :: _, 0 => a
  | _ :: t, n + 1 => getO O t n

/-- Pipeline constructor `StrProcPipeProcess.__init__`: keep the given
stage list and append one fresh `StrBuffer` unless the last given stage
declares `is_infinity_input`. (On an empty list the source would raise
`IndexError` from the `[-1]` access; the claims quantify over non-empty
lists only.) -/
def mkPipe {S : Type} (O : Ops S) (given : List S) : List S :=
  if StrProcFlags.is_infinity_input ∈ O.class_flags (getO O given (given.length - 1))
  then given
  else given ++ [O.newBuf]

/-- The drain loop of `str_pipe_process`, on explicit fuel.
The Python loop keeps a cursor `pos` starting at `len(stages) - 1`,
decrements it, and when `stages[pos]` reports output, moves one item from
`stages[pos]` into `stages[pos + 1]` and resets the cursor to
`len(stages) - 1`; it exits when the cursor reaches 0 without any move.
Here the cursor value at entry plays the role of the Python value before
the decrement, so the stage inspected is at index `pos - 1` and the
receiving stage is at index `pos`. -/
def drainGo {S : Type} (O : Ops S) : Nat → List S → Nat → Except PErr (List S)
  | 0, _, _ => .error .fuelExhausted
  | fuel + 1, ps, pos =>
    if 0 < pos then
      match O.state (getO O ps (pos - 1)) with
      | .error e => .error e
      | .ok v =>
        if v.has_output then
          match O.output (getO O ps (pos - 1)) with
          | .error e => .error e
          | .ok (out, src) =>
            match O.input (getO O ps pos) out with
            | .error e => .error e
            | .ok dst => drainGo O fuel ((ps.set (pos - 1) src).set pos dst) (ps.length - 1)
        else drainGo O fuel ps (pos - 1)
    else .ok ps

/-- Executable fuel bound for the drain loop: every buffered item can move
forward at most `length` times and each move costs at most one full scan. -/
def fuelBound {S : Type} (O : Ops S) (ps : List S) : Nat :=
  (ps.map O.size).sum * ps.length * ps.length + ps.length + 1

/-- Method `str_pipe_process`: run the drain loop from the tail cursor. -/
def str_pipe_process {S : Type} (O : Ops S) (ps : List S) : Except PErr (List S) :=
  drainGo O (fuelBound O ps) ps (ps.length - 1)

/-- Method `input` of the pipeline: deliver the item to stage 0, then run
the drain loop. -/
def plInput {S : Type} (O : Ops S) (ps : List S) (s : String) : Except PErr (List S) :=
  match O.input (getO O ps 0) s with
  | .error e => .error e
  | .ok st0 => str_pipe_process O (ps.set 0 st0)

/-- Method `output` of the pipeline: delegate to the tail stage. -/
def plOutput {S : Type} (O : Ops S) (ps : List S) : Except PErr (String × List S) :=
  match O.output (getO O ps (ps.length - 1)) with
  | .error e => .error e
  | .ok (s, tl) => .ok (s, ps.set (ps.length - 1) tl)

/-- Method `state` of the pipeline: `has_output_and_can_input` or
`has_output_default` when the tail stage reports output (depending on
whether stage 0 reports `can_input`), `can_input_default` when only stage 0
reports `can_input`, and the `BrokenPipeError` deadlock raise otherwise. -/
def plState {S : Type} (O : Ops S) (ps : List S) : Except PErr StrProcState :=
  match O.state (getO O ps (ps.length - 1)) with
  | .error e => .error e
  | .ok tv =>
    match O.state (getO O ps 0) with
    | .error e => .error e
    | .ok hv =>
      if tv.has_output then
        .ok (if hv.can_input then .has_output_and_can_input else .has_output_default)
      else if hv.can_input then .ok .can_input_default
      else .error .brokenPipeDeadlock

/-- Call `eof` on every component stage in order. -/
def eofAll {S : Type} (O : Ops S) : List S → Except PErr (List S)
  | [] => .ok []
  | s :: t =>
    match O.eof s with
    | .error e => .error e
    | .ok s' =>
      match eofAll O t with
      | .error e => .error e
      | .ok t' => .ok (s' :: t')

/-- Method `eof` of the pipeline: `eof` on every stage, then drain. -/
def plEof {S : Type} (O : Ops S) (ps : List S) : Except PErr (List S) :=
  match eofAll O ps with
  | .error e => .error e
  | .ok ps' => str_pipe_process O ps'

/-- Feed a list of items one at a time through the pipeline `input`. -/
def feedAll {S : Type} (O : Ops S) : List S → List String → Except PErr (List S)
  | ps, [] => .ok ps
  | ps, x :: xs =>
    match plInput O ps x with
    | .error e => .error e
    | .ok ps' => feedAll O ps' xs

/-- Repeatedly call the pipeline `output` while the pipeline `state`
reports `has_output`, collecting the produced items in order (on fuel;
the lemmas show the executable bound of `runPipe` is never exhausted). -/
def collectGo {S : Type} (O : Ops S) : Nat → List S → Except PErr (List String × List S)
  | 0, _ => .error .fuelExhausted
  | fuel + 1, ps =>
    match plState O ps with
    | .error e => .error e
    | .ok v =>
      if v.has_output then
        match plOutput O ps with
        | .error e => .error e
        | .ok (x, ps') =>
          match collectGo O fuel ps' with
          | .error e => .error e
          | .ok (l, psf) => .ok (x :: l, psf)
      else .ok ([], ps)

/-- End-to-end run: feed every item of `xs` one at a time, then drain the
outputs while the pipeline state reports `has_output`. -/
def runPipe {S : Type} (O : Ops S) (ps : List S) (xs : List String) : Except PErr (List String) :=
  match feedAll O ps xs with
  | .error e => .error e
  | .ok ps' =>
    match collectGo O ((ps'.map O.size).sum + 1) ps' with
    | .error e => .error e
    | .ok (outs, _) => .ok outs

/-- Composite transform applied on the way through a stage list: each
transit applies its function, buffers pass items unchanged, sinks swallow
them (`none`). -/
def chainTr {S : Type} (tr : S → String → Option String) : List S → String → Option String
  | [], s => some s
  | a :: t, s => (tr a s).bind (chainTr tr t)

/-- All items currently inside a stage list, in the order they would leave
the tail, each mapped through the transforms of the stages it still has to
cross (items a sink will swallow are dropped). -/
def contentsOf {S : Type} (items : S → List String) (tr : S → String → Option String) :
    List S → List String
  | [] => []
  | a :: t => contentsOf items tr t ++ (items a).filterMap (chainTr tr t)

/-- Termination measure for the drain loop: each buffered item weighted by
its distance to the tail (distance 1 at the tail itself). -/
def weightOf {S : Type} (items : S → List String) : List S → Nat
  | [] => 0
  | a :: t => (items a).length * (t.length + 1) + weightOf items t

/-- The interface facts about one stage kind that the drain lemmas use.
`Inv` is an invariant on a stage value (trivial for flat stages, the
internal quiescence facts for a nested pipeline), `TailAcc` singles out
stages whose `input` never raises (the tail position of a constructed
pipeline always holds one). -/
structure OpsLaws {S : Type} (O : Ops S) (items : S → List String)
    (tr : S → String → Option String) (Inv : S → Prop) (TailAcc : S → Prop) : Prop where
  st_ok : ∀ s, Inv s → ∃ v, O.state s = .ok v
  no_out_items : ∀ s v, Inv s → O.state s = .ok v → v.has_output = false → items s = []
  empty_no_out : ∀ s, Inv s → items s = [] → ∃ v, O.state s = .ok v ∧ v.has_output = false
  out_ok : ∀ s v, Inv s → O.state s = .ok v → v.has_output = true →
    ∃ x s', O.output s = .ok (x, s') ∧ items s = x :: items s' ∧ Inv s' ∧
      tr s' = tr s ∧ (TailAcc s → TailAcc s')
  inp_ok : ∀ s x, Inv s →
    (TailAcc s ∨ ∃ v, O.state s = .ok v ∧ v.has_output = false) →
    ∃ s', O.input s x = .ok s' ∧ items s' = items s ++ (tr s x).toList ∧ Inv s' ∧
      tr s' = tr s ∧ (TailAcc s → TailAcc s')
  size_ok : ∀ s, Inv s → (items s).length ≤ O.size s
  inf_tacc : ∀ s, StrProcFlags.is_infinity_input ∈ O.class_flags s → TailAcc s
  newBuf_inv : Inv O.newBuf
  newBuf_tacc : TailAcc O.newBuf
  newBuf_items : items O.newBuf = []
  newBuf_tr : ∀ s, tr O.newBuf s = some s

/-- Pipeline states reachable through the public operations: a freshly
constructed pipeline, then closed under successful `input`, `output` and
`eof` calls. -/
inductive Reachable : List StrProc → Prop where
  | init (given : List StrProc) (h : given ≠ []) : Reachable (mkPipe pipeOps given)
  | input (ps ps' : List StrProc) (s : String) (h : Reachable ps)
      (hs : plInput pipeOps ps s = .ok ps') : Reachable ps'
  | output (ps ps' : List StrProc) (s : String) (h : Reachable ps)
      (hs : plOutput pipeOps ps = .ok (s, ps')) : Reachable ps'
  | eof (ps ps' : List StrProc) (h : Reachable ps)
      (hs : plEof pipeOps ps = .ok ps') : Reachable ps'

/-- Stage values of a pipeline that may contain one fully-built pipeline
nested as a stage (the source marks this with `has_sub_proc`). -/
inductive Stage2 where
  | lift (st : StrProc)
  | pipe (ps : List StrProc)

/-- Items of a level-2 stage: for a nested pipeline, everything currently
inside it as it would leave its own tail. -/
def Stage2.items : Stage2 → List String
  | .lift st => st.items
  | .pipe ps => contentsOf StrProc.items StrProc.tr ps

/-- Transform effect of a level-2 stage on one accepted item. -/
def Stage2.tr : Stage2 → String → Option String
  | .lift st => st.tr
  | .pipe ps => chainTr StrProc.tr ps

/-- Invariant of a level-2 stage: a nested pipeline is non-empty, its tail
always accepts, and it is internally quiescent (every stage before its tail
reports no output), exactly the state a built pipeline is in after any of
its public operations. -/
def Stage2.Inv : Stage2 → Prop
  | .lift _ => True
  | .pipe ps => ps ≠ [] ∧ (getO pipeOps ps (ps.length - 1)).accepts_any = true ∧
      (∀ j, j + 1 < ps.length → (getO pipeOps ps j).state.has_output = false)

/-- Level-2 stages whose `input` never raises. -/
def Stage2.TailAcc : Stage2 → Prop
  | .lift st => st.accepts_any = true
  | .pipe _ => True

/-- The operations of the two-level stage variant: a lifted flat stage
delegates to its own methods, a nested pipeline delegates to the pipeline
methods (which is exactly what the duck-typed source does). -/
def stage2Ops : Ops Stage2 where
  input := fun s x =>
    match s with
    | .lift st =>
      match st.input x with
      | .error e => .error e
      | .ok st' => .ok (.lift st')
    | .pipe ps =>
      match plInput pipeOps ps x with
      | .error e => .error e
      | .ok ps' => .ok (.pipe ps')
  output := fun s =>
    match s with
    | .lift st =>
      match st.output with
      | .error e => .error e
      | .ok (a, st') => .ok (a, .lift st')
    | .pipe ps =>
      match plOutput pipeOps ps with
      | .error e => .error e
      | .ok (a, ps') => .ok (a, .pipe ps')
  state := fun s =>
    match s with
    | .lift st => .ok st.state
    | .pipe ps => plState pipeOps ps
  eof := fun s =>
    match s with
    | .lift st =>
      match st.eof with
      | .error e => .error e
      | .ok st' => .ok (.lift st')
    | .pipe ps =>
      match plEof pipeOps ps with
      | .error e => .error e
      | .ok ps' => .ok (.pipe ps')
  class_flags := fun s =>
    match s with
    | .lift st => st.class_flags
    | .pipe _ => [.has_sub_proc]
  size := fun s =>
    match s with
    | .lift st => st.size
    | .pipe ps => (ps.map StrProc.size).sum
  dflt := .lift (.buffer [])
  newBuf := .lift (.buffer [])

/-- Composite transform of a stage list with every sink treated as a pass;
agrees with `chainTr` on lists of order-preserving stages. -/
def flatFn : List StrProc → String → String
  | [], s => s
  | .transit f _ :: t, s => flatFn t (f s)
  | _ :: t, s => flatFn t s

/-! Basic helper lemmas about the total indexer, `List.set`, `Option.toList`
and `List.filterMap`. -/

theorem getO_nil {S : Type} (O : Ops S) (n : Nat) : getO O [] n = O.dflt := by
  cases n <;> rfl

theorem getO_mem {S : Type} (O : Ops S) :
    ∀ (ps : List S) (i : Nat), i < ps.length → getO O ps i ∈ ps := by
  intro ps
  induction ps with
  | nil => intro i h; simp at h
  | cons a t ih =>
    intro i h
    cases i with
    | zero => exact List.mem_cons_self a t
    | succ j => exact List.mem_cons_of_mem a (ih j (by simpa using h))

theorem getO_set_self {S : Type} (O : Ops S) :
    ∀ (ps : List S) (i : Nat) (v : S), i < ps.length → getO O (ps.set i v) i = v := by
  intro ps
  induction ps with
  | nil => intro i v h; simp at h
  | cons a t ih =>
    intro i v h
    cases i with
    | zero => rfl
    | succ j => exact ih j v (by simpa using h)

theorem getO_set_ne {S : Type} (O : Ops S) :
    ∀ (ps : List S) (i j : Nat) (v : S), i ≠ j → getO O (ps.set i v) j = getO O ps j := by
  intro ps
  induction ps with
  | nil => intro i j v _; simp [List.set]
  | cons a t ih =>
    intro i j v hij
    cases i with
    | zero =>
      cases j with
      | zero => exact absurd rfl hij
      | succ j' => rfl
    | succ i' =>
      cases j with
      | zero => rfl
      | succ j' => exact ih i' j' v (fun h => hij (by rw [h]))

theorem set_getO_self {S : Type} (O : Ops S) :
    ∀ (ps : List S) (i : Nat), ps.set i (getO O ps i) = ps := by
  intro ps
  induction ps with
  | nil => intro i; rfl
  | cons a t ih =>
    intro i
    cases i with
    | zero => rfl
    | succ j =>
      have h : getO O (a :: t) (j + 1) = getO O t j := rfl
      simp only [List.set, h, ih j]

theorem getO_append_left {S : Type} (O : Ops S) :
    ∀ (l r : List S) (i : Nat), i < l.length → getO O (l ++ r) i = getO O l i := by
  intro l
  induction l with
  | nil => intro r i h; simp at h
  | cons a t ih =>
    intro r i h
    cases i with
    | zero => rfl
    | succ j => exact ih r j (by simpa using h)

theorem getO_append_right {S : Type} (O : Ops S) :
    ∀ (l r : List S) (i : Nat), getO O (l ++ r) (l.length + i) = getO O r i := by
  intro l
  induction l with
  | nil => intro r i; simp [getO]
  | cons a t ih =>
    intro r i
    have : t.length + 1 + i = (t.length + i) + 1 := by omega
    simp only [List.cons_append, List.length_cons, this, getO]
    exact ih r i

theorem map_set_untouched {S β : Type} (O : Ops S) (f : S → β) :
    ∀ (ps : List S) (i : Nat) (v : S), f v = f (getO O ps i) →
      (ps.set i v).map f = ps.map f := by
  intro ps
  induction ps with
  | nil => intro i v _; rfl
  | cons a t ih =>
    intro i v hv
    cases i with
    | zero => simp only [List.set, List.map_cons]; rw [hv]; rfl
    | succ j => simp only [List.set, List.map_cons]; rw [ih j v hv]

theorem map_eq_getO {S β : Type} (O : Ops S) (f : S → β) :
    ∀ (ps qs : List S), ps.map f = qs.map f →
      ∀ i, i < ps.length → f (getO O ps i) = f (getO O qs i) := by
  intro ps
  induction ps with
  | nil => intro qs _ i h; simp at h
  | cons a t ih =>
    intro qs hmap i h
    cases qs with
    | nil => simp at hmap
    | cons b u =>
      simp only [List.map_cons, List.cons.injEq] at hmap
      cases i with
      | zero => exact hmap.1
      | succ j => exact ih u hmap.2 j (by simpa using h)

theorem toList_length_le {α : Type} (o : Option α) : o.toList.length ≤ 1 := by
  cases o <;> simp [Option.toList]

theorem toList_bind {α β : Type} (o : Option α) (f : α → Option β) :
    (o.bind f).toList = o.toList.filterMap f := by
  cases o with
  | none => rfl
  | some a =>
    cases h : f a <;> simp [Option.toList, Option.bind, List.filterMap, h]

theorem filterMap_cons_toList {α β : Type} (f : α → Option β) (x : α) (l : List α) :
    (x :: l).filterMap f = (f x).toList ++ l.filterMap f := by
  cases h : f x <;> simp [List.filterMap_cons, h, Option.toList]

theorem filterMap_some_id {α : Type} : ∀ (l : List α), l.filterMap some = l := by
  intro l
  induction l with
  | nil => rfl
  | cons a t ih => simp [List.filterMap_cons, ih]

theorem filterMap_congr_fun {α β : Type} (f g : α → Option β)
    (h : ∀ x, f x = g x) : ∀ (l : List α), l.filterMap f = l.filterMap g := by
  intro l
  induction l with
  | nil => rfl
  | cons a t ih => simp [List.filterMap_cons, h a, ih]

theorem mem_sum_le (n : Nat) : ∀ (l : List Nat), n ∈ l → n ≤ l.sum := by
  intro l
  induction l with
  | nil => intro h; simp at h
  | cons a t ih =>
    intro h
    rcases List.mem_cons.mp h with h | h
    · subst h; simp [List.sum_cons]
    · have := ih h; simp [List.sum_cons]; omega

/-! Lemmas about `chainTr`, `contentsOf` and `weightOf`. -/

theorem chainTr_cons {S : Type} (tr : S → String → Option String) (a : S) (t : List S)
    (s : String) : chainTr tr (a :: t) s = (tr a s).bind (chainTr tr t) := rfl

theorem chainTr_append {S : Type} (tr : S → String → Option String) :
    ∀ (l r : List S) (s : String),
      chainTr tr (l ++ r) s = (chainTr tr l s).bind (chainTr tr r) := by
  intro l
  induction l with
  | nil => intro r s; rfl
  | cons a t ih =>
    intro r s
    simp only [List.cons_append, chainTr_cons]
    cases tr a s with
    | none => rfl
    | some y => exact ih r y

theorem chainTr_congr {S : Type} (tr : S → String → Option String) :
    ∀ (ps qs : List S), ps.map tr = qs.map tr →
      ∀ s, chainTr tr ps s = chainTr tr qs s := by
  intro ps
  induction ps with
  | nil =>
    intro qs h s
    cases qs with
    | nil => rfl
    | cons b u => simp at h
  | cons a t ih =>
    intro qs h s
    cases qs with
    | nil => simp at h
    | cons b u =>
      simp only [List.map_cons, List.cons.injEq] at h
      simp only [chainTr_cons, h.1]
      cases tr b s with
      | none => rfl
      | some y => exact ih u h.2 y

theorem contents_nil_of_items_nil {S : Type} (items : S → List String)
    (tr : S → String → Option String) :
    ∀ (ps : List S), (∀ s ∈ ps, items s = []) → contentsOf items tr ps = [] := by
  intro ps
  induction ps with
  | nil => intro _; rfl
  | cons a t ih =>
    intro h
    simp only [contentsOf, h a (List.mem_cons_self a t), List.filterMap_nil, List.append_nil]
    exact ih (fun s hs => h s (List.mem_cons_of_mem a hs))

theorem contents_last_of_quiescent {S : Type} (O : Ops S) (items : S → List String)
    (tr : S → String → Option String) :
    ∀ (ps : List S), ps ≠ [] →
      (∀ j, j + 1 < ps.length → items (getO O ps j) = []) →
      contentsOf items tr ps = items (getO O ps (ps.length - 1)) := by
  intro ps
  induction ps with
  | nil => intro h _; exact absurd rfl h
  | cons a t ih =>
    intro _ hq
    cases t with
    | nil =>
      simp only [contentsOf, List.nil_append]
      show (items a).filterMap (chainTr tr []) = items a
      have : ∀ s, chainTr tr [] s = some s := fun s => rfl
      rw [filterMap_congr_fun _ some this, filterMap_some_id]
    | cons b u =>
      have ha : items a = [] := hq 0 (by simp)
      simp only [contentsOf, ha, List.filterMap_nil, List.append_nil]
      have := ih (by simp) (fun j hj => hq (j + 1) (by simpa using Nat.succ_lt_succ hj))
      simpa using this

theorem weightOf_cons {S : Type} (items : S → List String) (a : S) (t : List S) :
    weightOf items (a :: t) = (items a).length * (t.length + 1) + weightOf items t := rfl

/-- One move of the drain loop, described at the level of buffered items:
the moved item leaves the head of the source items and lands (through the
receiving stage transform) at the tail of the destination items. The list
contents are unchanged, the positional weight strictly decreases, and the
per-stage transforms are unchanged. -/
theorem drain_step_facts {S : Type} (O : Ops S) (items : S → List String)
    (tr : S → String → Option String) :
    ∀ (ps : List S) (p : Nat) (src' dst' : S) (x : String),
      p + 1 < ps.length →
      items (getO O ps p) = x :: items src' →
      tr src' = tr (getO O ps p) →
      items dst' = items (getO O ps (p + 1)) ++ (tr (getO O ps (p + 1)) x).toList →
      tr dst' = tr (getO O ps (p + 1)) →
      contentsOf items tr ((ps.set p src').set (p + 1) dst') = contentsOf items tr ps ∧
      weightOf items ((ps.set p src').set (p + 1) dst') + 1 ≤ weightOf items ps ∧
      ((ps.set p src').set (p + 1) dst').map tr = ps.map tr := by
  intro ps
  induction ps with
  | nil => intro p src' dst' x h; simp at h
  | cons a t ih =>
    intro p src' dst' x hlen hia hts hid htd
    cases p with
    | zero =>
      cases t with
      | nil => simp at hlen
      | cons b u =>
        have hget0 : getO O (a :: b :: u) 0 = a := rfl
        have hget1 : getO O (a :: b :: u) 1 = b := rfl
        rw [hget0] at hia hts
        rw [hget1] at hid htd
        have hset : ((a :: b :: u).set 0 src').set 1 dst' = src' :: dst' :: u := rfl
        rw [hset]
        refine ⟨?_, ?_, ?_⟩
        · -- contents preserved
          show contentsOf items tr u ++ (items dst').filterMap (chainTr tr u) ++
              (items src').filterMap (chainTr tr (dst' :: u)) =
            contentsOf items tr u ++ (items b).filterMap (chainTr tr u) ++
              (items a).filterMap (chainTr tr (b :: u))
          have e1 : ∀ s, chainTr tr (dst' :: u) s = chainTr tr (b :: u) s := by
            intro s; simp only [chainTr_cons, htd]
          rw [filterMap_congr_fun _ _ e1]
          rw [hid, List.filterMap_append, hia, filterMap_cons_toList]
          have e3 : ((tr b x).toList).filterMap (chainTr tr u) = (chainTr tr (b :: u) x).toList := by
            rw [chainTr_cons, toList_bind]
          rw [e3]
          simp [List.append_assoc]
        · -- weight decreases
          show (items src').length * (u.length + 2) + ((items dst').length * (u.length + 1) +
              weightOf items u) + 1 ≤
            (items a).length * (u.length + 2) + ((items b).length * (u.length + 1) +
              weightOf items u)
          have hA : (items a).length = (items src').length + 1 := by rw [hia]; rfl
          have hD : (items dst').length ≤ (items b).length + 1 := by
            rw [hid, List.length_append]
            have := toList_length_le (tr b x)
            omega
          have e1 : (items a).length * (u.length + 2) =
              (items src').length * (u.length + 2) + (u.length + 2) := by rw [hA]; ring
          have e2 : (items dst').length * (u.length + 1) ≤
              ((items b).length + 1) * (u.length + 1) := Nat.mul_le_mul_right _ hD
          have e3 : ((items b).length + 1) * (u.length + 1) =
              (items b).length * (u.length + 1) + (u.length + 1) := by ring
          omega
        · -- transforms preserved
          show tr src' :: tr dst' :: u.map tr = tr a :: tr b :: u.map tr
          rw [hts, htd]
    | succ k =>
      have hlen' : k + 1 < t.length := by simpa using hlen
      have hset : ((a :: t).set (k + 1) src').set (k + 2) dst' =
          a :: ((t.set k src').set (k + 1) dst') := rfl
      rw [hset]
      obtain ⟨hc, hw, hm⟩ := ih k src' dst' x hlen' hia hts hid htd
      refine ⟨?_, ?_, ?_⟩
      · show contentsOf items tr ((t.set k src').set (k + 1) dst') ++
            (items a).filterMap (chainTr tr ((t.set k src').set (k + 1) dst')) =
          contentsOf items tr t ++ (items a).filterMap (chainTr tr t)
        rw [hc, filterMap_congr_fun _ _ (chainTr_congr tr _ _ hm)]
      · have hlt : ((t.set k src').set (k + 1) dst').length = t.length := by
          simp [List.length_set]
        show (items a).length * (((t.set k src').set (k + 1) dst').length + 1) +
            weightOf items ((t.set k src').set (k + 1) dst') + 1 ≤
          (items a).length * (t.length + 1) + weightOf items t
        rw [hlt]
        omega
      · show tr a :: ((t.set k src').set (k + 1) dst').map tr = tr a :: t.map tr
        rw [hm]

/-- Total correctness of the drain loop. From any cursor position whose
already-scanned suffix reports no output, given enough fuel, the loop
returns without error, the result is quiescent (no stage before the tail
reports output), the pipeline contents and the per-stage transforms are
unchanged, and the stage invariants and the tail acceptance are preserved. -/
theorem drainGo_total {S : Type} (O : Ops S) (items : S → List String)
    (tr : S → String → Option String) (Inv TailAcc : S → Prop)
    (hl : OpsLaws O items tr Inv TailAcc) :
    ∀ (fuel : Nat) (ps : List S) (pos : Nat),
      (∀ s ∈ ps, Inv s) →
      TailAcc (getO O ps (ps.length - 1)) →
      pos ≤ ps.length - 1 →
      (∀ j, pos ≤ j → j + 1 < ps.length →
        ∃ v, O.state (getO O ps j) = .ok v ∧ v.has_output = false) →
      weightOf items ps * ps.length + pos < fuel →
      ∃ ps', drainGo O fuel ps pos = .ok ps' ∧
        ps'.length = ps.length ∧ ps'.map tr = ps.map tr ∧
        (∀ s ∈ ps', Inv s) ∧ TailAcc (getO O ps' (ps'.length - 1)) ∧
        contentsOf items tr ps' = contentsOf items tr ps ∧
        (∀ j, j + 1 < ps'.length →
          ∃ v, O.state (getO O ps' j) = .ok v ∧ v.has_output = false) := by
  intro fuel
  induction fuel with
  | zero => intro ps pos _ _ _ _ hf; omega
  | succ fuel ih =>
    intro ps pos hinv htail hpos hq hf
    by_cases hp : 0 < pos
    case neg =>
      have hpos0 : pos = 0 := by omega
      subst hpos0
      refine ⟨ps, ?_, rfl, rfl, hinv, htail, rfl, fun j hj => hq j (Nat.zero_le j) hj⟩
      simp [drainGo]
    case pos =>
      have hplen : pos - 1 < ps.length := by omega
      have hinv1 : Inv (getO O ps (pos - 1)) := hinv _ (getO_mem O ps (pos - 1) hplen)
      obtain ⟨v, hv⟩ := hl.st_ok _ hinv1
      by_cases hout : v.has_output = true
      case neg =>
        have hvfalse : v.has_output = false := by
          cases hvb : v.has_output
          · rfl
          · exact absurd hvb hout
        have hq' : ∀ j, pos - 1 ≤ j → j + 1 < ps.length →
            ∃ w, O.state (getO O ps j) = .ok w ∧ w.has_output = false := by
          intro j hj hjl
          by_cases hje : j = pos - 1
          · subst hje; exact ⟨v, hv, hvfalse⟩
          · exact hq j (by omega) hjl
        obtain ⟨ps', h1, h2, h3, h4, h5, h6, h7⟩ :=
          ih ps (pos - 1) hinv htail (by omega) hq' (by omega)
        refine ⟨ps', ?_, h2, h3, h4, h5, h6, h7⟩
        simp only [drainGo, if_pos hp, hv, hvfalse, Bool.false_eq_true, if_false]
        exact h1
      case pos =>
        obtain ⟨x, src', ho, hitems, hinvs, htrs, htaccs⟩ := hl.out_ok _ v hinv1 hv hout
        have hposlen : pos < ps.length := by omega
        have hinvd : Inv (getO O ps pos) := hinv _ (getO_mem O ps pos hposlen)
        have hcond : TailAcc (getO O ps pos) ∨
            ∃ w, O.state (getO O ps pos) = .ok w ∧ w.has_output = false := by
          by_cases hlast : pos = ps.length - 1
          · left; rw [hlast]; exact htail
          · right; exact hq pos (le_refl pos) (by omega)
        obtain ⟨dst', hi, hitemd, hinvd', htrd, htaccd⟩ := hl.inp_ok _ x hinvd hcond
        have hpp : pos - 1 + 1 = pos := by omega
        rw [← hpp] at hitemd htrd
        obtain ⟨hc, hw, hm⟩ :=
          drain_step_facts O items tr ps (pos - 1) src' dst' x (by omega) hitems htrs hitemd htrd
        rw [hpp] at hc hw hm
        have hlen2 : ((ps.set (pos - 1) src').set pos dst').length = ps.length := by
          simp [List.length_set]
        have hinv2 : ∀ s ∈ (ps.set (pos - 1) src').set pos dst', Inv s := by
          intro s hs
          rcases List.mem_or_eq_of_mem_set hs with hs' | hs'
          · rcases List.mem_or_eq_of_mem_set hs' with hs'' | hs''
            · exact hinv s hs''
            · subst hs''; exact hinvs
          · subst hs'; exact hinvd'
        have htail2 : TailAcc (getO O ((ps.set (pos - 1) src').set pos dst')
            (((ps.set (pos - 1) src').set pos dst').length - 1)) := by
          rw [hlen2]
          by_cases hlast : pos = ps.length - 1
          · rw [← hlast,
              getO_set_self O (ps.set (pos - 1) src') pos dst' (by simp [List.length_set]; omega)]
            apply htaccd
            rw [hlast]; exact htail
          · rw [getO_set_ne O (ps.set (pos - 1) src') pos (ps.length - 1) dst' (by omega),
              getO_set_ne O ps (pos - 1) (ps.length - 1) src' (by omega)]
            exact htail
        have hq2 : ∀ j, ((ps.set (pos - 1) src').set pos dst').length - 1 ≤ j →
            j + 1 < ((ps.set (pos - 1) src').set pos dst').length →
            ∃ w, O.state (getO O ((ps.set (pos - 1) src').set pos dst') j) = .ok w ∧
              w.has_output = false := by
          intro j hj hjl
          rw [hlen2] at hj hjl
          omega
        have hfu : weightOf items ((ps.set (pos - 1) src').set pos dst') *
            ((ps.set (pos - 1) src').set pos dst').length +
            (((ps.set (pos - 1) src').set pos dst').length - 1) < fuel := by
          rw [hlen2]
          have h1 : (weightOf items ((ps.set (pos - 1) src').set pos dst') + 1) * ps.length ≤
              weightOf items ps * ps.length := Nat.mul_le_mul_right _ hw
          have h2 : (weightOf items ((ps.set (pos - 1) src').set pos dst') + 1) * ps.length =
              weightOf items ((ps.set (pos - 1) src').set pos dst') * ps.length + ps.length := by
            ring
          omega
        obtain ⟨ps', h1, h2, h3, h4, h5, h6, h7⟩ :=
          ih ((ps.set (pos - 1) src').set pos dst')
            (((ps.set (pos - 1) src').set pos dst').length - 1) hinv2 htail2 (le_refl _) hq2 hfu
        refine ⟨ps', ?_, by rw [h2, hlen2], by rw [h3, hm], h4, h5, by rw [h6, hc], h7⟩
        simp only [drainGo, if_pos hp, hv, hout, if_true, ho, hi]
        rw [show ps.length - 1 =
          ((ps.set (pos - 1) src').set pos dst').length - 1 from by rw [hlen2]]
        exact h1

/-- The positional weight is bounded by total size times list length. -/
theorem weight_le_size {S : Type} (O : Ops S) (items : S → List String) :
    ∀ (ps : List S), (∀ s ∈ ps, (items s).length ≤ O.size s) →
      weightOf items ps ≤ (ps.map O.size).sum * ps.length := by
  intro ps
  induction ps with
  | nil => intro _; simp [weightOf]
  | cons a t ih =>
    intro h
    have h1 : (items a).length * (t.length + 1) ≤ O.size a * (t.length + 1) :=
      Nat.mul_le_mul_right _ (h a (List.mem_cons_self a t))
    have h2 : weightOf items t ≤ (t.map O.size).sum * t.length :=
      ih (fun s hs => h s (List.mem_cons_of_mem a hs))
    have h3 : (t.map O.size).sum * t.length ≤ (t.map O.size).sum * (t.length + 1) :=
      Nat.mul_le_mul_left _ (by omega)
    have h4 : (O.size a + (t.map O.size).sum) * (t.length + 1) =
        O.size a * (t.length + 1) + (t.map O.size).sum * (t.length + 1) := by ring
    simp only [weightOf_cons, List.map_cons, List.sum_cons, List.length_cons]
    omega

/-- The executable fuel bound of `str_pipe_process` is sufficient: the
drain always returns without error, quiescent, with contents, transforms,
invariants and tail acceptance preserved. -/
theorem str_pipe_process_total {S : Type} (O : Ops S) (items : S → List String)
    (tr : S → String → Option String) (Inv TailAcc : S → Prop)
    (hl : OpsLaws O items tr Inv TailAcc) (ps : List S)
    (hinv : ∀ s ∈ ps, Inv s) (htail : TailAcc (getO O ps (ps.length - 1))) :
    ∃ ps', str_pipe_process O ps = .ok ps' ∧
      ps'.length = ps.length ∧ ps'.map tr = ps.map tr ∧
      (∀ s ∈ ps', Inv s) ∧ TailAcc (getO O ps' (ps'.length - 1)) ∧
      contentsOf items tr ps' = contentsOf items tr ps ∧
      (∀ j, j + 1 < ps'.length →
        ∃ v, O.state (getO O ps' j) = .ok v ∧ v.has_output = false) := by
  have hw : weightOf items ps ≤ (ps.map O.size).sum * ps.length :=
    weight_le_size O items ps (fun s hs => hl.size_ok s (hinv s hs))
  have h1 : weightOf items ps * ps.length ≤ ((ps.map O.size).sum * ps.length) * ps.length :=
    Nat.mul_le_mul_right _ hw
  have h2 : ((ps.map O.size).sum * ps.length) * ps.length =
      (ps.map O.size).sum * ps.length * ps.length := by ring
  exact drainGo_total O items tr Inv TailAcc hl (fuelBound O ps) ps (ps.length - 1)
    hinv htail (le_refl _) (fun j hj hjl => absurd hjl (by omega))
    (by simp only [fuelBound]; omega)

/-- Pipeline `input` on a quiescent pipeline with an always-accepting tail:
it succeeds, restores quiescence, and appends the item (as mapped through
the whole chain) to the pipeline contents. -/
theorem plInput_total {S : Type} (O : Ops S) (items : S → List String)
    (tr : S → String → Option String) (Inv TailAcc : S → Prop)
    (hl : OpsLaws O items tr Inv TailAcc) (ps : List S) (x : String)
    (hinv : ∀ s ∈ ps, Inv s) (htail : TailAcc (getO O ps (ps.length - 1)))
    (hq : ∀ j, j + 1 < ps.length →
      ∃ v, O.state (getO O ps j) = .ok v ∧ v.has_output = false)
    (hne : ps ≠ []) :
    ∃ ps', plInput O ps x = .ok ps' ∧
      ps'.length = ps.length ∧ ps'.map tr = ps.map tr ∧
      (∀ s ∈ ps', Inv s) ∧ TailAcc (getO O ps' (ps'.length - 1)) ∧
      (∀ j, j + 1 < ps'.length →
        ∃ v, O.state (getO O ps' j) = .ok v ∧ v.has_output = false) ∧
      contentsOf items tr ps' = contentsOf items tr ps ++ (chainTr tr ps x).toList := by
  obtain ⟨a, t, rfl⟩ : ∃ a t, ps = a :: t := by
    cases ps with
    | nil => exact absurd rfl hne
    | cons a t => exact ⟨a, t, rfl⟩
  have hinva : Inv a := hinv a (List.mem_cons_self a t)
  have hcond : TailAcc a ∨ ∃ v, O.state a = .ok v ∧ v.has_output = false := by
    cases t with
    | nil => exact Or.inl htail
    | cons b u => exact Or.inr (hq 0 (by simp))
  obtain ⟨st0, hi0, hitems0, hinv0, htr0, htacc0⟩ := hl.inp_ok a x hinva hcond
  have hset0 : (a :: t).set 0 st0 = st0 :: t := rfl
  have hinv1 : ∀ s ∈ st0 :: t, Inv s := by
    intro s hs
    rcases List.mem_cons.mp hs with hs | hs
    · subst hs; exact hinv0
    · exact hinv s (List.mem_cons_of_mem a hs)
  have htail1 : TailAcc (getO O (st0 :: t) ((st0 :: t).length - 1)) := by
    cases t with
    | nil => exact htacc0 htail
    | cons b u => exact htail
  obtain ⟨ps', h1, h2, h3, h4, h5, h6, h7⟩ :=
    str_pipe_process_total O items tr Inv TailAcc hl (st0 :: t) hinv1 htail1
  have hcont1 : contentsOf items tr (st0 :: t) =
      contentsOf items tr (a :: t) ++ (chainTr tr (a :: t) x).toList := by
    show contentsOf items tr t ++ (items st0).filterMap (chainTr tr t) =
      contentsOf items tr t ++ (items a).filterMap (chainTr tr t) ++
        (chainTr tr (a :: t) x).toList
    rw [hitems0, List.filterMap_append, chainTr_cons, toList_bind, List.append_assoc]
  have hmap1 : (st0 :: t).map tr = (a :: t).map tr := by
    simp only [List.map_cons]; rw [htr0]
  refine ⟨ps', ?_, by simpa using h2, by rw [h3, hmap1], h4, h5, h7, by rw [h6, hcont1]⟩
  simp only [plInput]
  have hget0 : getO O (a :: t) 0 = a := rfl
  rw [hget0, hi0]
  exact h1

/-- Feeding a list of items one at a time into a quiescent pipeline with an
always-accepting tail: every `input` succeeds and the fed items, mapped
through the whole chain, are appended to the contents in order. -/
theorem feedAll_total {S : Type} (O : Ops S) (items : S → List String)
    (tr : S → String → Option String) (Inv TailAcc : S → Prop)
    (hl : OpsLaws O items tr Inv TailAcc) :
    ∀ (xs : List String) (ps : List S),
      (∀ s ∈ ps, Inv s) → TailAcc (getO O ps (ps.length - 1)) →
      (∀ j, j + 1 < ps.length →
        ∃ v, O.state (getO O ps j) = .ok v ∧ v.has_output = false) →
      ps ≠ [] →
      ∃ ps', feedAll O ps xs = .ok ps' ∧
        ps'.length = ps.length ∧ ps'.map tr = ps.map tr ∧
        (∀ s ∈ ps', Inv s) ∧ TailAcc (getO O ps' (ps'.length - 1)) ∧
        (∀ j, j + 1 < ps'.length →
          ∃ v, O.state (getO O ps' j) = .ok v ∧ v.has_output = false) ∧
        contentsOf items tr ps' = contentsOf items tr ps ++ xs.filterMap (chainTr tr ps) := by
  intro xs
  induction xs with
  | nil =>
    intro ps hinv htail hq hne
    exact ⟨ps, rfl, rfl, rfl, hinv, htail, hq, by simp⟩
  | cons x xs ih =>
    intro ps hinv htail hq hne
    obtain ⟨ps1, h1, h2, h3, h4, h5, h6, h7⟩ :=
      plInput_total O items tr Inv TailAcc hl ps x hinv htail hq hne
    have hne1 : ps1 ≠ [] := by
      intro hc
      have hz : ps.length = 0 := by rw [← h2, hc]; rfl
      exact hne (List.length_eq_zero.mp hz)
    obtain ⟨ps', g1, g2, g3, g4, g5, g6, g7⟩ := ih ps1 h4 h5 h6 hne1
    refine ⟨ps', ?_, by rw [g2, h2], by rw [g3, h3], g4, g5, g6, ?_⟩
    · simp only [feedAll, h1]
      exact g1
    · rw [g7, h7]
      have hcg : xs.filterMap (chainTr tr ps1) = xs.filterMap (chainTr tr ps) :=
        filterMap_congr_fun _ _ (chainTr_congr tr ps1 ps h3) xs
      rw [hcg, List.append_assoc, filterMap_cons_toList]

/-- Every readiness value that does not report `has_output` reports
`can_input`: the two predicates partition the enum at value 100. -/
theorem state_no_output_can_input :
    ∀ v : StrProcState, v.has_output = false → v.can_input = true := by
  intro v h
  cases v <;> revert h <;> decide

/-- Both values the pipeline `state` can return when the tail reports
output themselves report `has_output`. -/
theorem state_ite_has_output (b : Bool) :
    (if b = true then StrProcState.has_output_and_can_input
     else StrProcState.has_output_default).has_output = true := by
  cases b <;> decide

/-- Draining the collected outputs of a quiescent pipeline: while the
pipeline `state` reports output, `output` pops exactly the buffered items
of the tail stage, in order. -/
theorem collectGo_total {S : Type} (O : Ops S) (items : S → List String)
    (tr : S → String → Option String) (Inv TailAcc : S → Prop)
    (hl : OpsLaws O items tr Inv TailAcc) :
    ∀ (fuel : Nat) (ps : List S),
      (∀ s ∈ ps, Inv s) →
      (∀ j, j + 1 < ps.length →
        ∃ v, O.state (getO O ps j) = .ok v ∧ v.has_output = false) →
      ps ≠ [] →
      (items (getO O ps (ps.length - 1))).length < fuel →
      ∃ psf, collectGo O fuel ps = .ok (items (getO O ps (ps.length - 1)), psf) := by
  intro fuel
  induction fuel with
  | zero => intro ps _ _ _ hf; omega
  | succ fuel ih =>
    intro ps hinv hq hne hf
    have hlenpos : 0 < ps.length := List.length_pos.mpr hne
    have hinvt : Inv (getO O ps (ps.length - 1)) :=
      hinv _ (getO_mem O ps (ps.length - 1) (by omega))
    obtain ⟨tv, htv⟩ := hl.st_ok _ hinvt
    have hhead : ∃ hv, O.state (getO O ps 0) = .ok hv := by
      cases hps : ps.length with
      | zero => omega
      | succ n =>
        cases n with
        | zero =>
          refine ⟨tv, ?_⟩
          have : ps.length - 1 = 0 := by omega
          rw [this] at htv
          exact htv
        | succ m => exact ⟨(hq 0 (by omega)).choose, (hq 0 (by omega)).choose_spec.1⟩
    obtain ⟨hv, hhv⟩ := hhead
    by_cases htvout : tv.has_output = true
    case pos =>
      obtain ⟨x, tl, ho, hitems, hinvtl, htrtl, htacctl⟩ := hl.out_ok _ tv hinvt htv htvout
      have hset : (ps.set (ps.length - 1) tl).length = ps.length := by simp [List.length_set]
      have hinv' : ∀ s ∈ ps.set (ps.length - 1) tl, Inv s := by
        intro s hs
        rcases List.mem_or_eq_of_mem_set hs with hs' | hs'
        · exact hinv s hs'
        · subst hs'; exact hinvtl
      have hq' : ∀ j, j + 1 < (ps.set (ps.length - 1) tl).length →
          ∃ v, O.state (getO O (ps.set (ps.length - 1) tl) j) = .ok v ∧
            v.has_output = false := by
        intro j hj
        rw [hset] at hj
        rw [getO_set_ne O ps (ps.length - 1) j tl (by omega)]
        exact hq j hj
      have hne' : ps.set (ps.length - 1) tl ≠ [] := by
        intro hc
        have hz := congrArg List.length hc
        rw [hset] at hz
        simp only [List.length_nil] at hz
        omega
      have hgets : getO O (ps.set (ps.length - 1) tl)
          ((ps.set (ps.length - 1) tl).length - 1) = tl := by
        rw [hset]
        exact getO_set_self O ps (ps.length - 1) tl (by omega)
      have hlentl : (items (getO O ps (ps.length - 1))).length = (items tl).length + 1 := by
        rw [hitems]
        rfl
      have hflt : (items (getO O (ps.set (ps.length - 1) tl)
          ((ps.set (ps.length - 1) tl).length - 1))).length < fuel := by
        rw [hgets]
        omega
      obtain ⟨psf, hrec⟩ := ih (ps.set (ps.length - 1) tl) hinv' hq' hne' hflt
      refine ⟨psf, ?_⟩
      simp only [collectGo, plState, htv, hhv, htvout, if_true, plOutput, ho]
      rw [state_ite_has_output]
      simp only [if_true, hrec, hgets, hitems]
    case neg =>
      have htvf : tv.has_output = false := by
        cases hb : tv.has_output
        · rfl
        · exact absurd hb htvout
      have hitemsnil : items (getO O ps (ps.length - 1)) = [] :=
        hl.no_out_items _ tv hinvt htv htvf
      have hhvf : hv.has_output = false := by
        cases hps : ps.length with
        | zero => omega
        | succ n =>
          cases n with
          | zero =>
            have h0 : ps.length - 1 = 0 := by omega
            rw [h0] at htv
            rw [hhv] at htv
            cases htv
            exact htvf
          | succ m =>
            obtain ⟨w, hw, hwf⟩ := hq 0 (by omega)
            rw [hhv] at hw
            cases hw
            exact hwf
      have hhvc : hv.can_input = true := state_no_output_can_input hv hhvf
      refine ⟨ps, ?_⟩
      rw [hitemsnil]
      simp only [collectGo, plState, htv, hhv, htvf, Bool.false_eq_true, if_false, hhvc,
        if_true]
      rfl

/-- End-to-end behaviour of a fresh pipeline with an always-accepting
tail: feeding `xs` one item at a time and then draining the outputs while
the pipeline state reports output succeeds and returns exactly the items
of `xs` mapped through the whole chain (in order, with the items a sink
swallows dropped). -/
theorem runPipe_total {S : Type} (O : Ops S) (items : S → List String)
    (tr : S → String → Option String) (Inv TailAcc : S → Prop)
    (hl : OpsLaws O items tr Inv TailAcc) (ps : List S) (xs : List String)
    (hinv : ∀ s ∈ ps, Inv s) (htail : TailAcc (getO O ps (ps.length - 1)))
    (hne : ps ≠ []) (hfresh : ∀ s ∈ ps, items s = []) :
    runPipe O ps xs = .ok (xs.filterMap (chainTr tr ps)) := by
  have hq : ∀ j, j + 1 < ps.length →
      ∃ v, O.state (getO O ps j) = .ok v ∧ v.has_output = false := by
    intro j hj
    have hm := getO_mem O ps j (by omega)
    exact hl.empty_no_out _ (hinv _ hm) (hfresh _ hm)
  obtain ⟨ps1, h1, h2, h3, h4, h5, h6, h7⟩ :=
    feedAll_total O items tr Inv TailAcc hl xs ps hinv htail hq hne
  have hne1 : ps1 ≠ [] := by
    intro hc
    have hz : ps.length = 0 := by rw [← h2, hc]; rfl
    exact hne (List.length_eq_zero.mp hz)
  have hcont0 : contentsOf items tr ps = [] := contents_nil_of_items_nil items tr ps hfresh
  have hcont1 : contentsOf items tr ps1 = xs.filterMap (chainTr tr ps) := by
    rw [h7, hcont0]; rfl
  have hq1items : ∀ j, j + 1 < ps1.length → items (getO O ps1 j) = [] := by
    intro j hj
    obtain ⟨v, hv, hvf⟩ := h6 j hj
    exact hl.no_out_items _ v (h4 _ (getO_mem O ps1 j (by omega))) hv hvf
  have hlast1 : items (getO O ps1 (ps1.length - 1)) = xs.filterMap (chainTr tr ps) := by
    rw [← hcont1]
    exact (contents_last_of_quiescent O items tr ps1 hne1 hq1items).symm
  have hsz : (items (getO O ps1 (ps1.length - 1))).length < (ps1.map O.size).sum + 1 := by
    have hm := getO_mem O ps1 (ps1.length - 1) (by
      have : 0 < ps1.length := List.length_pos.mpr hne1
      omega)
    have hle : (items (getO O ps1 (ps1.length - 1))).length ≤
        O.size (getO O ps1 (ps1.length - 1)) := hl.size_ok _ (h4 _ hm)
    have hmem : O.size (getO O ps1 (ps1.length - 1)) ∈ ps1.map O.size :=
      List.mem_map_of_mem O.size hm
    have hsum := mem_sum_le _ _ hmem
    omega
  obtain ⟨psf, hc⟩ := collectGo_total O items tr Inv TailAcc hl
    ((ps1.map O.size).sum + 1) ps1 h4 h6 hne1 hsz
  simp only [runPipe, h1, hc, hlast1]

/-- Facts about the pipeline constructor: the built stage list is
non-empty, its stages keep their invariants, its tail always accepts
input, its chain transform equals that of the given list, and it is fresh
when the given stages are. -/
theorem mkPipe_facts {S : Type} (O : Ops S) (items : S → List String)
    (tr : S → String → Option String) (Inv TailAcc : S → Prop)
    (hl : OpsLaws O items tr Inv TailAcc) (given : List S)
    (hg : given ≠ []) (hinv : ∀ s ∈ given, Inv s) :
    mkPipe O given ≠ [] ∧ (∀ s ∈ mkPipe O given, Inv s) ∧
      TailAcc (getO O (mkPipe O given) ((mkPipe O given).length - 1)) ∧
      (∀ s, chainTr tr (mkPipe O given) s = chainTr tr given s) ∧
      ((∀ s ∈ given, items s = []) → ∀ s ∈ mkPipe O given, items s = []) := by
  by_cases hmem : StrProcFlags.is_infinity_input ∈
      O.class_flags (getO O given (given.length - 1))
  case pos =>
    have heq : mkPipe O given = given := by simp [mkPipe, hmem]
    rw [heq]
    exact ⟨hg, hinv, hl.inf_tacc _ hmem, fun s => rfl, fun h => h⟩
  case neg =>
    have heq : mkPipe O given = given ++ [O.newBuf] := by simp [mkPipe, hmem]
    rw [heq]
    refine ⟨by simp, ?_, ?_, ?_, ?_⟩
    · intro s hs
      rcases List.mem_append.mp hs with hs | hs
      · exact hinv s hs
      · rw [List.mem_singleton.mp hs]; exact hl.newBuf_inv
    · have hlen : (given ++ [O.newBuf]).length - 1 = given.length := by simp
      rw [hlen]
      have hg0 : getO O (given ++ [O.newBuf]) (given.length + 0) = getO O [O.newBuf] 0 :=
        getO_append_right O given [O.newBuf] 0
      simp only [Nat.add_zero] at hg0
      rw [hg0]
      exact hl.newBuf_tacc
    · intro s
      rw [chainTr_append]
      have hnb : ∀ y, chainTr tr [O.newBuf] y = some y := by
        intro y
        show (tr O.newBuf y).bind (chainTr tr []) = some y
        rw [hl.newBuf_tr y]
        rfl
      cases chainTr tr given s with
      | none => rfl
      | some y => exact hnb y
    · intro h s hs
      rcases List.mem_append.mp hs with hs | hs
      · exact h s hs
      · rw [List.mem_singleton.mp hs]; exact hl.newBuf_items

/-- The flat stage variant satisfies the interface laws, with a trivial
invariant; the always-accepting stages are exactly the non-transit kinds. -/
theorem flat_laws : OpsLaws pipeOps StrProc.items StrProc.tr (fun _ => True)
    (fun s => s.accepts_any = true) := by
  refine ⟨?_, ?_, ?_, ?_, ?_, ?_, ?_, ?_, ?_, ?_, ?_⟩
  · intro s _
    exact ⟨s.state, rfl⟩
  · intro s v _ hv hvf
    injection hv with h
    subst h
    cases s with
    | transit f sl =>
      cases sl with
      | none => rfl
      | some w => exact Bool.noConfusion hvf
    | printFinal sl =>
      cases sl with
      | none => rfl
      | some w => exact Bool.noConfusion hvf
    | null sl =>
      cases sl with
      | none => rfl
      | some w => exact Bool.noConfusion hvf
    | buffer l =>
      cases l with
      | nil => rfl
      | cons a t => exact Bool.noConfusion hvf
  · intro s _ hitems
    cases s with
    | transit f sl =>
      cases sl with
      | none => exact ⟨.can_input_default, rfl, rfl⟩
      | some w => exact List.noConfusion hitems
    | printFinal sl =>
      cases sl with
      | none => exact ⟨.can_input_default, rfl, rfl⟩
      | some w => exact List.noConfusion hitems
    | null sl =>
      cases sl with
      | none => exact ⟨.can_input_default, rfl, rfl⟩
      | some w => exact List.noConfusion hitems
    | buffer l =>
      cases l with
      | nil => exact ⟨.can_input_default, rfl, rfl⟩
      | cons a t => exact List.noConfusion hitems
  · intro s v _ hv hvt
    injection hv with h
    subst h
    cases s with
    | transit f sl =>
      cases sl with
      | none => exact Bool.noConfusion hvt
      | some w => exact ⟨w, .transit f none, rfl, rfl, trivial, rfl, fun h => h⟩
    | printFinal sl =>
      cases sl with
      | none => exact Bool.noConfusion hvt
      | some w => exact ⟨w, .printFinal none, rfl, rfl, trivial, rfl, fun h => h⟩
    | null sl =>
      cases sl with
      | none => exact Bool.noConfusion hvt
      | some w => exact ⟨w, .null none, rfl, rfl, trivial, rfl, fun h => h⟩
    | buffer l =>
      cases l with
      | nil => exact Bool.noConfusion hvt
      | cons x t => exact ⟨x, .buffer t, rfl, rfl, trivial, rfl, fun h => h⟩
  · intro s x _ hcond
    cases s with
    | transit f sl =>
      cases sl with
      | none => exact ⟨.transit f (some (f x)), rfl, rfl, trivial, rfl, fun h => h⟩
      | some w =>
        exfalso
        rcases hcond with hacc | ⟨v, hv, hvf⟩
        · exact Bool.noConfusion hacc
        · injection hv with h
          subst h
          exact Bool.noConfusion hvf
    | printFinal sl =>
      exact ⟨.printFinal sl, rfl, (List.append_nil _).symm, trivial, rfl, fun h => h⟩
    | null sl =>
      exact ⟨.null sl, rfl, (List.append_nil _).symm, trivial, rfl, fun h => h⟩
    | buffer l =>
      exact ⟨.buffer (l ++ [x]), rfl, rfl, trivial, rfl, fun h => h⟩
  · intro s _
    exact le_refl _
  · intro s hmem
    cases s with
    | transit f sl => simp [pipeOps, StrProc.class_flags] at hmem
    | printFinal sl => simp [pipeOps, StrProc.class_flags] at hmem
    | null sl => rfl
    | buffer l => rfl
  · exact trivial
  · rfl
  · rfl
  · intro s
    rfl

/-- For a flat stage list the generic no-output form coincides with the
boolean `state().has_output` check. -/
theorem flat_noout_elim (s : StrProc)
    (h : ∃ v, pipeOps.state s = .ok v ∧ v.has_output = false) :
    s.state.has_output = false := by
  obtain ⟨v, hv, hvf⟩ := h
  injection hv with h'
  rw [h']
  exact hvf

/-- Flat `input` preserves the stage kind as seen by `accepts_any`. -/
theorem pipeOps_input_eq (s : StrProc) (x : String) : pipeOps.input s x = s.input x := rfl

theorem pipeOps_class_flags_eq (s : StrProc) : pipeOps.class_flags s = s.class_flags := rfl

theorem pipeOps_newBuf_eq : pipeOps.newBuf = StrProc.buffer [] := rfl

theorem pipeOps_output_eq (s : StrProc) : pipeOps.output s = s.output := rfl

theorem pipeOps_state_eq (s : StrProc) : pipeOps.state s = .ok s.state := rfl

theorem pipeOps_eof_eq (s : StrProc) : pipeOps.eof s = .ok s := rfl

theorem input_preserves_accepts (s s' : StrProc) (x : String)
    (h : s.input x = .ok s') : s'.accepts_any = s.accepts_any := by
  cases s with
  | transit f sl =>
    cases sl with
    | none => injection h with h'; rw [← h']; rfl
    | some w => exact Except.noConfusion h
  | printFinal sl => injection h with h'; rw [← h']
  | null sl => injection h with h'; rw [← h']
  | buffer l => injection h with h'; rw [← h']; rfl

/-- Flat `output` preserves the stage kind as seen by `accepts_any`. -/
theorem output_preserves_accepts (s s' : StrProc) (x : String)
    (h : s.output = .ok (x, s')) : s'.accepts_any = s.accepts_any := by
  cases s with
  | transit f sl =>
    cases sl with
    | none => exact Except.noConfusion h
    | some w =>
      injection h with h'
      injection h' with h1 h2
      rw [← h2]
      rfl
  | printFinal sl =>
    cases sl with
    | none => exact Except.noConfusion h
    | some w =>
      injection h with h'
      injection h' with h1 h2
      rw [← h2]
      rfl
  | null sl =>
    cases sl with
    | none => exact Except.noConfusion h
    | some w =>
      injection h with h'
      injection h' with h1 h2
      rw [← h2]
      rfl
  | buffer l =>
    cases l with
    | nil => exact Except.noConfusion h
    | cons a t =>
      injection h with h'
      injection h' with h1 h2
      rw [← h2]
      rfl

/-- The flat drain loop never changes which list positions hold
always-accepting stages. -/
theorem drainGo_preserves_accepts :
    ∀ (fuel : Nat) (ps ps' : List StrProc) (pos : Nat),
      drainGo pipeOps fuel ps pos = .ok ps' →
      ps'.map StrProc.accepts_any = ps.map StrProc.accepts_any := by
  intro fuel
  induction fuel with
  | zero => intro ps ps' pos h; exact Except.noConfusion h
  | succ fuel ih =>
    intro ps ps' pos h
    by_cases hp : 0 < pos
    case neg =>
      simp only [drainGo, if_neg hp] at h
      injection h with h'
      rw [h']
    case pos =>
      simp only [drainGo, if_pos hp, pipeOps_state_eq, pipeOps_output_eq,
        pipeOps_input_eq] at h
      by_cases hb : (getO pipeOps ps (pos - 1)).state.has_output = true
      case neg =>
        rw [if_neg hb] at h
        exact ih ps ps' (pos - 1) h
      case pos =>
        rw [if_pos hb] at h
        cases ho : StrProc.output (getO pipeOps ps (pos - 1)) with
        | error e => rw [ho] at h; exact Except.noConfusion h
        | ok p =>
          obtain ⟨out, src⟩ := p
          simp only [ho] at h
          cases hi : StrProc.input (getO pipeOps ps pos) out with
          | error e => rw [hi] at h; exact Except.noConfusion h
          | ok dst =>
            simp only [hi] at h
            have hrec := ih _ ps' (ps.length - 1) h
            have hsrc : StrProc.accepts_any src =
                StrProc.accepts_any (getO pipeOps ps (pos - 1)) :=
              output_preserves_accepts _ _ _ ho
            have hdst : StrProc.accepts_any dst =
                StrProc.accepts_any (getO pipeOps (ps.set (pos - 1) src) pos) := by
              rw [getO_set_ne pipeOps ps (pos - 1) pos src (by omega)]
              exact input_preserves_accepts _ _ _ hi
            rw [hrec,
              map_set_untouched pipeOps StrProc.accepts_any (ps.set (pos - 1) src) pos dst hdst,
              map_set_untouched pipeOps StrProc.accepts_any ps (pos - 1) src hsrc]

/-- Flat `eof` on every stage is the identity (each stage `eof` is a
no-op `pass`). -/
theorem eofAll_flat : ∀ (ps : List StrProc), eofAll pipeOps ps = .ok ps := by
  intro ps
  induction ps with
  | nil => rfl
  | cons a t ih => simp only [eofAll, pipeOps_eof_eq, ih]

/-- Every reachable pipeline state is non-empty and its tail stage is of
an always-accepting kind. -/
theorem reachable_facts :
    ∀ ps, Reachable ps → ps ≠ [] ∧ (getO pipeOps ps (ps.length - 1)).accepts_any = true := by
  intro ps h
  induction h with
  | init given hne =>
    obtain ⟨h1, _, h3, _, _⟩ := mkPipe_facts pipeOps StrProc.items StrProc.tr
      (fun _ => True) (fun s => s.accepts_any = true) flat_laws given hne (fun s _ => trivial)
    exact ⟨h1, h3⟩
  | input ps ps' s _ hs hih =>
    obtain ⟨hne, hacc⟩ := hih
    simp only [plInput] at hs
    cases hi : pipeOps.input (getO pipeOps ps 0) s with
    | error e => rw [hi] at hs; exact Except.noConfusion hs
    | ok st0 =>
      rw [hi] at hs
      have hmap := drainGo_preserves_accepts _ _ _ _ hs
      have hst0 : StrProc.accepts_any st0 = StrProc.accepts_any (getO pipeOps ps 0) :=
        input_preserves_accepts _ _ _ hi
      have hmap2 : ps'.map StrProc.accepts_any = ps.map StrProc.accepts_any := by
        rw [hmap, map_set_untouched pipeOps StrProc.accepts_any ps 0 st0 hst0]
      have hlen : ps'.length = ps.length := by
        have := congrArg List.length hmap2
        simpa using this
      have hne' : ps' ≠ [] := by
        intro hc
        rw [hc] at hlen
        exact hne (List.length_eq_zero.mp hlen.symm)
      have hlenpos : 0 < ps.length := List.length_pos.mpr hne
      have := map_eq_getO pipeOps StrProc.accepts_any ps' ps hmap2 (ps.length - 1)
        (by omega)
      refine ⟨hne', ?_⟩
      rw [hlen, this]
      exact hacc
  | output ps ps' s _ hs hih =>
    obtain ⟨hne, hacc⟩ := hih
    simp only [plOutput, pipeOps_output_eq] at hs
    cases ho : StrProc.output (getO pipeOps ps (ps.length - 1)) with
    | error e => rw [ho] at hs; exact Except.noConfusion hs
    | ok p =>
      obtain ⟨s0, tl⟩ := p
      rw [ho] at hs
      injection hs with h'
      injection h' with h1 h2
      have htl : StrProc.accepts_any tl =
          StrProc.accepts_any (getO pipeOps ps (ps.length - 1)) :=
        output_preserves_accepts _ _ _ ho
      have hlenpos : 0 < ps.length := List.length_pos.mpr hne
      have hset : ps' = ps.set (ps.length - 1) tl := h2.symm
      have hlen : ps'.length = ps.length := by rw [hset]; simp [List.length_set]
      refine ⟨?_, ?_⟩
      · intro hc
        rw [hc] at hlen
        exact hne (List.length_eq_zero.mp hlen.symm)
      · rw [hlen, hset, getO_set_self pipeOps ps (ps.length - 1) tl (by omega)]
        rw [htl]
        exact hacc
  | eof ps ps' _ hs hih =>
    obtain ⟨hne, hacc⟩ := hih
    simp only [plEof, eofAll_flat] at hs
    have hmap := drainGo_preserves_accepts _ _ _ _ hs
    have hlen : ps'.length = ps.length := by
      have := congrArg List.length hmap
      simpa using this
    have hne' : ps' ≠ [] := by
      intro hc
      rw [hc] at hlen
      exact hne (List.length_eq_zero.mp hlen.symm)
    have hlenpos : 0 < ps.length := List.length_pos.mpr hne
    have := map_eq_getO pipeOps StrProc.accepts_any ps' ps hmap (ps.length - 1) (by omega)
    refine ⟨hne', ?_⟩
    rw [hlen, this]
    exact hacc

/-- A flat stage that reports no output buffers no items. -/
theorem flat_state_noout_items (s : StrProc) (h : s.state.has_output = false) :
    s.items = [] := by
  cases s with
  | transit f sl =>
    cases sl with
    | none => rfl
    | some w => exact Bool.noConfusion h
  | printFinal sl =>
    cases sl with
    | none => rfl
    | some w => exact Bool.noConfusion h
  | null sl =>
    cases sl with
    | none => rfl
    | some w => exact Bool.noConfusion h
  | buffer l =>
    cases l with
    | nil => rfl
    | cons a t => exact Bool.noConfusion h


/-- A flat stage that buffers no items reports no output. -/
theorem flat_items_nil_noout (s : StrProc) (h : s.items = []) :
    s.state.has_output = false := by
  cases s with
  | transit f sl =>
    cases sl with
    | none => rfl
    | some w => exact List.noConfusion h
  | printFinal sl =>
    cases sl with
    | none => rfl
    | some w => exact List.noConfusion h
  | null sl =>
    cases sl with
    | none => rfl
    | some w => exact List.noConfusion h
  | buffer l =>
    cases l with
    | nil => rfl
    | cons a t => exact List.noConfusion h

/-- Closed form of the pipeline `state` method over flat stages: the
result is determined by the tail stage `has_output` and the stage 0
`can_input` reports, with the deadlock error when both are absent. -/
theorem plState_flat_eq (ps : List StrProc) :
    plState pipeOps ps =
      (if (getO pipeOps ps (ps.length - 1)).state.has_output then
        .ok (if (getO pipeOps ps 0).state.can_input then .has_output_and_can_input
             else .has_output_default)
      else if (getO pipeOps ps 0).state.can_input then .ok .can_input_default
      else .error .brokenPipeDeadlock) := by
  simp only [plState, pipeOps_state_eq]

/-- A quiescent flat pipeline never raises from `state`, and the value it
returns reports output exactly when the tail stage does. -/
theorem plState_flat_ok (ps : List StrProc) (hne : ps ≠ [])
    (hq : ∀ j, j + 1 < ps.length → (getO pipeOps ps j).state.has_output = false) :
    ∃ v, plState pipeOps ps = .ok v ∧
      v.has_output = (getO pipeOps ps (ps.length - 1)).state.has_output := by
  have hlenpos : 0 < ps.length := List.length_pos.mpr hne
  rw [plState_flat_eq]
  by_cases ht : (getO pipeOps ps (ps.length - 1)).state.has_output = true
  case pos =>
    rw [if_pos ht, ht]
    exact ⟨_, rfl, state_ite_has_output _⟩
  case neg =>
    have htf : (getO pipeOps ps (ps.length - 1)).state.has_output = false := by
      cases hb : (getO pipeOps ps (ps.length - 1)).state.has_output
      · rfl
      · exact absurd hb ht
    have hhf : (getO pipeOps ps 0).state.has_output = false := by
      cases hlen : ps.length with
      | zero => omega
      | succ n =>
        cases n with
        | zero =>
          have h0 : ps.length - 1 = 0 := by omega
          rw [h0] at htf
          exact htf
        | succ m => exact hq 0 (by omega)
    have hhc : (getO pipeOps ps 0).state.can_input = true :=
      state_no_output_can_input _ hhf
    rw [if_neg ht, if_pos hhc]
    exact ⟨.can_input_default, rfl, by rw [htf]; rfl⟩

/-- Contents of a quiescent flat pipeline all sit in its tail stage. -/
theorem flat_contents_quiescent (ps : List StrProc) (hne : ps ≠ [])
    (hq : ∀ j, j + 1 < ps.length → (getO pipeOps ps j).state.has_output = false) :
    contentsOf StrProc.items StrProc.tr ps = (getO pipeOps ps (ps.length - 1)).items :=
  contents_last_of_quiescent pipeOps _ _ ps hne
    (fun j hj => flat_state_noout_items _ (hq j hj))

/-- Flat version of `plInput_total`, with quiescence phrased through the
boolean `state` checks of the flat stages. -/
theorem flat_plInput_total (ps : List StrProc) (x : String)
    (htail : (getO pipeOps ps (ps.length - 1)).accepts_any = true)
    (hq : ∀ j, j + 1 < ps.length → (getO pipeOps ps j).state.has_output = false)
    (hne : ps ≠ []) :
    ∃ ps', plInput pipeOps ps x = .ok ps' ∧ ps'.length = ps.length ∧
      ps'.map StrProc.tr = ps.map StrProc.tr ∧
      (getO pipeOps ps' (ps'.length - 1)).accepts_any = true ∧
      (∀ j, j + 1 < ps'.length → (getO pipeOps ps' j).state.has_output = false) ∧
      contentsOf StrProc.items StrProc.tr ps' =
        contentsOf StrProc.items StrProc.tr ps ++ (chainTr StrProc.tr ps x).toList := by
  obtain ⟨ps', h1, h2, h3, _, h5, h6, h7⟩ :=
    plInput_total pipeOps StrProc.items StrProc.tr (fun _ => True)
      (fun s => s.accepts_any = true) flat_laws ps x (fun s _ => trivial) htail
      (fun j hj => ⟨(getO pipeOps ps j).state, rfl, hq j hj⟩) hne
  exact ⟨ps', h1, h2, h3, h5, fun j hj => flat_noout_elim _ (h6 j hj), h7⟩

/-- The number of items inside a flat pipeline is at most the sum of its
stage sizes. -/
theorem contents_length_le :
    ∀ ps : List StrProc,
      (contentsOf StrProc.items StrProc.tr ps).length ≤ (ps.map StrProc.size).sum := by
  intro ps
  induction ps with
  | nil => exact le_refl _
  | cons a t ih =>
    simp only [contentsOf, List.length_append, List.map_cons, List.sum_cons]
    have h1 : ((a.items).filterMap (chainTr StrProc.tr t)).length ≤ a.items.length :=
      List.length_filterMap_le _ _
    have h2 : a.items.length = a.size := rfl
    omega

theorem stage2Ops_state_pipe (ps : List StrProc) :
    stage2Ops.state (.pipe ps) = plState pipeOps ps := rfl

theorem ne_nil_of_length_eq {α β : Type} (l : List α) (l' : List β)
    (h : l'.length = l.length) (hne : l ≠ []) : l' ≠ [] := by
  intro hc
  rw [hc] at h
  exact hne (List.length_eq_zero.mp h.symm)

/-- The two-level stage variant satisfies the interface laws: a lifted
flat stage behaves as before, and a nested pipeline in its reachable
(quiescent, accepting-tail) states behaves as one stage whose transform is
the chain of its own stages. -/
theorem stage2_laws : OpsLaws stage2Ops Stage2.items Stage2.tr Stage2.Inv Stage2.TailAcc := by
  refine ⟨?_, ?_, ?_, ?_, ?_, ?_, ?_, ?_, ?_, ?_, ?_⟩
  · intro s hinv
    cases s with
    | lift st => exact ⟨st.state, rfl⟩
    | pipe ps =>
      obtain ⟨hne, htacc, hq⟩ := hinv
      obtain ⟨v, hv, _⟩ := plState_flat_ok ps hne hq
      exact ⟨v, hv⟩
  · intro s v hinv hv hvf
    cases s with
    | lift st =>
      injection hv with h'
      subst h'
      exact flat_state_noout_items st hvf
    | pipe ps =>
      obtain ⟨hne, htacc, hq⟩ := hinv
      obtain ⟨w, hw, hwo⟩ := plState_flat_ok ps hne hq
      rw [stage2Ops_state_pipe] at hv
      rw [hv] at hw
      injection hw with hvw
      show contentsOf StrProc.items StrProc.tr ps = []
      rw [flat_contents_quiescent ps hne hq]
      apply flat_state_noout_items
      rw [← hwo, ← hvw]
      exact hvf
  · intro s hinv hitems
    cases s with
    | lift st => exact ⟨st.state, rfl, flat_items_nil_noout st hitems⟩
    | pipe ps =>
      obtain ⟨hne, htacc, hq⟩ := hinv
      obtain ⟨v, hv, hvo⟩ := plState_flat_ok ps hne hq
      refine ⟨v, hv, ?_⟩
      rw [hvo]
      apply flat_items_nil_noout
      rw [← flat_contents_quiescent ps hne hq]
      exact hitems
  · intro s v hinv hv hvt
    cases s with
    | lift st =>
      injection hv with h'
      subst h'
      obtain ⟨x, st', ho, hitems, _, htr, htacc⟩ :=
        flat_laws.out_ok st st.state trivial rfl hvt
      have ho' : st.output = .ok (x, st') := ho
      refine ⟨x, .lift st', ?_, hitems, trivial, htr, htacc⟩
      show (match st.output with
        | Except.error e => Except.error e
        | Except.ok (a, st2) => Except.ok (a, Stage2.lift st2)) = .ok (x, Stage2.lift st')
      rw [ho']
    | pipe ps =>
      obtain ⟨hne, htacc, hq⟩ := hinv
      obtain ⟨w, hw, hwo⟩ := plState_flat_ok ps hne hq
      rw [stage2Ops_state_pipe] at hv
      rw [hv] at hw
      injection hw with hvw
      have htlout : (getO pipeOps ps (ps.length - 1)).state.has_output = true := by
        rw [← hwo, ← hvw]
        exact hvt
      obtain ⟨x, tl, ho, hitems, _, htr, _⟩ :=
        flat_laws.out_ok (getO pipeOps ps (ps.length - 1))
          (getO pipeOps ps (ps.length - 1)).state trivial rfl htlout
      have ho' : (getO pipeOps ps (ps.length - 1)).output = .ok (x, tl) := ho
      have hlenpos : 0 < ps.length := List.length_pos.mpr hne
      have hlq : (ps.set (ps.length - 1) tl).length = ps.length := by simp [List.length_set]
      have hneq : ps.set (ps.length - 1) tl ≠ [] :=
        ne_nil_of_length_eq ps (ps.set (ps.length - 1) tl) hlq hne
      have hgq : getO pipeOps (ps.set (ps.length - 1) tl)
          ((ps.set (ps.length - 1) tl).length - 1) = tl := by
        rw [hlq]
        exact getO_set_self pipeOps ps (ps.length - 1) tl (by omega)
      have hqq : ∀ j, j + 1 < (ps.set (ps.length - 1) tl).length →
          (getO pipeOps (ps.set (ps.length - 1) tl) j).state.has_output = false := by
        intro j hj
        rw [hlq] at hj
        rw [getO_set_ne pipeOps ps (ps.length - 1) j tl (by omega)]
        exact hq j hj
      have haccq : (getO pipeOps (ps.set (ps.length - 1) tl)
          ((ps.set (ps.length - 1) tl).length - 1)).accepts_any = true := by
        rw [hgq, output_preserves_accepts _ _ _ ho']
        exact htacc
      have hmapq : (ps.set (ps.length - 1) tl).map StrProc.tr = ps.map StrProc.tr :=
        map_set_untouched pipeOps StrProc.tr ps (ps.length - 1) tl htr
      refine ⟨x, .pipe (ps.set (ps.length - 1) tl), ?_, ?_, ⟨hneq, haccq, hqq⟩, ?_,
        fun _ => trivial⟩
      · show (match plOutput pipeOps ps with
          | Except.error e => Except.error e
          | Except.ok (a, qs) => Except.ok (a, Stage2.pipe qs)) =
          .ok (x, Stage2.pipe (ps.set (ps.length - 1) tl))
        have hpl : plOutput pipeOps ps = .ok (x, ps.set (ps.length - 1) tl) := by
          simp only [plOutput, pipeOps_output_eq, ho']
        rw [hpl]
      · show contentsOf StrProc.items StrProc.tr ps =
          x :: contentsOf StrProc.items StrProc.tr (ps.set (ps.length - 1) tl)
        rw [flat_contents_quiescent ps hne hq,
          flat_contents_quiescent (ps.set (ps.length - 1) tl) hneq hqq, hgq, hitems]
      · show chainTr StrProc.tr (ps.set (ps.length - 1) tl) = chainTr StrProc.tr ps
        funext s
        exact chainTr_congr StrProc.tr _ ps hmapq s
  · intro s x hinv hcond
    cases s with
    | lift st =>
      have hcond' : st.accepts_any = true ∨
          ∃ v, pipeOps.state st = .ok v ∧ v.has_output = false := by
        rcases hcond with h | ⟨v, hv, hvf⟩
        · exact Or.inl h
        · exact Or.inr ⟨v, hv, hvf⟩
      obtain ⟨st', hi, hitems, _, htr, htacc⟩ := flat_laws.inp_ok st x trivial hcond'
      have hi' : st.input x = .ok st' := hi
      refine ⟨.lift st', ?_, hitems, trivial, htr, htacc⟩
      show (match st.input x with
        | Except.error e => Except.error e
        | Except.ok st2 => Except.ok (Stage2.lift st2)) = .ok (Stage2.lift st')
      rw [hi']
    | pipe ps =>
      obtain ⟨hne, htacc, hq⟩ := hinv
      obtain ⟨ps', h1, h2, h3, h4, h5, h6⟩ := flat_plInput_total ps x htacc hq hne
      have hne' : ps' ≠ [] := ne_nil_of_length_eq ps ps' h2 hne
      refine ⟨.pipe ps', ?_, h6, ⟨hne', h4, h5⟩, ?_, fun _ => trivial⟩
      · show (match plInput pipeOps ps x with
          | Except.error e => Except.error e
          | Except.ok qs => Except.ok (Stage2.pipe qs)) = .ok (Stage2.pipe ps')
        rw [h1]
      · show chainTr StrProc.tr ps' = chainTr StrProc.tr ps
        funext s
        exact chainTr_congr StrProc.tr ps' ps h3 s
  · intro s hinv
    cases s with
    | lift st => exact le_refl _
    | pipe ps => exact contents_length_le ps
  · intro s hmem
    cases s with
    | lift st => exact flat_laws.inf_tacc st hmem
    | pipe ps => exact trivial
  · exact trivial
  · rfl
  · rfl
  · intro s
    rfl

theorem option_bind_some (o : Option String) : o.bind some = o := by
  cases o <;> rfl

/-- Lifting flat stages into the two-level variant does not change the
chain transform. -/
theorem chain2_map_lift : ∀ (l : List StrProc) (s : String),
    chainTr Stage2.tr (l.map Stage2.lift) s = chainTr StrProc.tr l s := by
  intro l
  induction l with
  | nil => intro s; rfl
  | cons a t ih =>
    intro s
    show (StrProc.tr a s).bind (chainTr Stage2.tr (t.map Stage2.lift)) =
      (StrProc.tr a s).bind (chainTr StrProc.tr t)
    cases StrProc.tr a s with
    | none => rfl
    | some y => exact ih y

/-- A nested pipeline used as a single stage has the chain transform of
its own stage list. -/
theorem chain2_pipe_singleton (inner : List StrProc) (s : String) :
    chainTr Stage2.tr [Stage2.pipe inner] s = chainTr StrProc.tr inner s := by
  show (chainTr StrProc.tr inner s).bind (chainTr Stage2.tr []) = chainTr StrProc.tr inner s
  exact option_bind_some _

/-- The chain transform of an outer stage list holding one nested pipeline
equals the chain transform of the flattened concatenation. -/
theorem chain2_nested (pre post inner : List StrProc) (s : String) :
    chainTr Stage2.tr
        (pre.map Stage2.lift ++ [Stage2.pipe inner] ++ post.map Stage2.lift) s =
      chainTr StrProc.tr (pre ++ inner ++ post) s := by
  rw [chainTr_append Stage2.tr (pre.map Stage2.lift ++ [Stage2.pipe inner])
      (post.map Stage2.lift) s,
    chainTr_append Stage2.tr (pre.map Stage2.lift) [Stage2.pipe inner] s,
    chainTr_append StrProc.tr (pre ++ inner) post s,
    chainTr_append StrProc.tr pre inner s,
    chain2_map_lift pre s]
  cases chainTr StrProc.tr pre s with
  | none => rfl
  | some y =>
    show (chainTr Stage2.tr [Stage2.pipe inner] y).bind
        (chainTr Stage2.tr (post.map Stage2.lift)) =
      (chainTr StrProc.tr inner y).bind (chainTr StrProc.tr post)
    rw [chain2_pipe_singleton]
    cases chainTr StrProc.tr inner y with
    | none => rfl
    | some z => exact chain2_map_lift post z

/-- The flat drain of any pipeline with an always-accepting tail stage
returns without error and reaches quiescence. -/
theorem flat_str_pipe_total (ps : List StrProc)
    (htacc : (getO pipeOps ps (ps.length - 1)).accepts_any = true) :
    ∃ ps', str_pipe_process pipeOps ps = .ok ps' ∧
      ∀ j, j + 1 < ps'.length → (getO pipeOps ps' j).state.has_output = false := by
  obtain ⟨ps', h1, _, _, _, _, _, h7⟩ :=
    str_pipe_process_total pipeOps StrProc.items StrProc.tr (fun _ => True)
      (fun s => s.accepts_any = true) flat_laws ps (fun s _ => trivial) htacc
  exact ⟨ps', h1, fun j hj => flat_noout_elim _ (h7 j hj)⟩

/-- The chain transform over order-preserving stages never swallows an
item: it computes the composite of the transit transforms. -/
theorem chain_siso : ∀ (ps : List StrProc), (∀ st ∈ ps, st.is_siso = true) →
    ∀ s, chainTr StrProc.tr ps s = some (flatFn ps s) := by
  intro ps
  induction ps with
  | nil => intro _ s; rfl
  | cons a t ih =>
    intro h s
    have ht : ∀ st ∈ t, st.is_siso = true := fun st hst => h st (List.mem_cons_of_mem a hst)
    cases a with
    | transit f sl => exact ih ht (f s)
    | printFinal sl => exact Bool.noConfusion (h _ (List.mem_cons_self _ t))
    | null sl => exact Bool.noConfusion (h _ (List.mem_cons_self _ t))
    | buffer l => exact ih ht s

/-- The constructor only ever adds a buffer, which is order-preserving. -/
theorem mkPipe_siso (given : List StrProc) (h : ∀ st ∈ given, st.is_siso = true) :
    ∀ st ∈ mkPipe pipeOps given, st.is_siso = true := by
  intro st hst
  simp only [mkPipe] at hst
  by_cases hc : StrProcFlags.is_infinity_input ∈
      pipeOps.class_flags (getO pipeOps given (given.length - 1))
  · rw [if_pos hc] at hst
    exact h st hst
  · rw [if_neg hc] at hst
    rcases List.mem_append.mp hst with h' | h'
    · exact h st h'
    · rw [List.mem_singleton.mp h']
      rfl

theorem filterMap_some_map (g : String → String) : ∀ (xs : List String),
    xs.filterMap (fun s => some (g s)) = xs.map g := by
  intro xs
  induction xs with
  | nil => rfl
  | cons a t ih => simp [List.filterMap_cons, ih]

/-- C1: for every finite item sequence fed one at a time through a
pipeline of order-preserving single-input/single-output stages (transits
with any transform, including identity, uppercase, strip-control-chars,
tab expansion and print-and-forward, plus any number of buffers), draining
the outputs while the pipeline state reports output yields exactly the
stage-wise transformed items in the same relative order as the input
(globally FIFO, no reordering, no loss). -/
theorem pipeline_fifo_order (given : List StrProc) (xs : List String)
    (hne : given ≠ [])
    (hgiven : ∀ st ∈ given, st.is_siso = true ∧ st.items = []) :
    runPipe pipeOps (mkPipe pipeOps given) xs =
      .ok (xs.map (flatFn (mkPipe pipeOps given))) := by
  obtain ⟨hne', hinv', htacc', _, hfreshF⟩ :=
    mkPipe_facts pipeOps StrProc.items StrProc.tr (fun _ => True)
      (fun s => s.accepts_any = true) flat_laws given hne (fun s _ => trivial)
  have hrun := runPipe_total pipeOps StrProc.items StrProc.tr (fun _ => True)
    (fun s => s.accepts_any = true) flat_laws (mkPipe pipeOps given) xs hinv' htacc' hne'
    (hfreshF (fun st hst => (hgiven st hst).2))
  rw [hrun]
  congr 1
  have hsiso : ∀ st ∈ mkPipe pipeOps given, st.is_siso = true :=
    mkPipe_siso given (fun st hst => (hgiven st hst).1)
  rw [filterMap_congr_fun _ _ (chain_siso _ hsiso) xs, filterMap_some_map]

theorem pipeline_fifo_order_witness :
    (([StrProc.transit upperFn none] : List StrProc) ≠ [] ∧
      (∀ st ∈ [StrProc.transit upperFn none], st.is_siso = true ∧ st.items = [])) ∧
    runPipe pipeOps (mkPipe pipeOps [StrProc.transit upperFn none]) ["ab", "cd"] =
      .ok ((["ab", "cd"] : List String).map
        (flatFn (mkPipe pipeOps [StrProc.transit upperFn none]))) :=
  ⟨⟨List.cons_ne_nil _ _, by
      intro st hst
      obtain rfl := List.mem_singleton.mp hst
      exact ⟨rfl, rfl⟩⟩,
    pipeline_fifo_order [StrProc.transit upperFn none] ["ab", "cd"]
      (List.cons_ne_nil _ _) (by
        intro st hst
        obtain rfl := List.mem_singleton.mp hst
        exact ⟨rfl, rfl⟩)⟩

/-- C2: on every pipeline state reachable through the public operations,
the draining algorithm terminates without error (the fuel bound is never
exhausted and no stage call raises), halting exactly at quiescence: in the
returned state no stage before the tail reports pullable output. -/
theorem drain_terminates_at_quiescence (ps : List StrProc) (h : Reachable ps) :
    ∃ ps', str_pipe_process pipeOps ps = .ok ps' ∧
      ∀ j, j + 1 < ps'.length → (getO pipeOps ps' j).state.has_output = false := by
  obtain ⟨-, hacc⟩ := reachable_facts ps h
  exact flat_str_pipe_total ps hacc

theorem drain_terminates_at_quiescence_witness :
    Reachable (mkPipe pipeOps [StrProc.transit id none]) ∧
    ∃ ps', str_pipe_process pipeOps (mkPipe pipeOps [StrProc.transit id none]) = .ok ps' ∧
      ∀ j, j + 1 < ps'.length → (getO pipeOps ps' j).state.has_output = false :=
  ⟨Reachable.init _ (List.cons_ne_nil _ _),
    drain_terminates_at_quiescence _ (Reachable.init _ (List.cons_ne_nil _ _))⟩

/-- C3 counterexample: on an empty queue the Buffer `output` method, which
is `self.buffer.pop(0)`, raises `IndexError`, not the `BrokenPipeError`
the specification calls Backpressure. -/
theorem buffer_empty_output_counterexample :
    (StrProc.buffer []).output = .error PErr.indexError ∧
    PErr.indexError.is_backpressure = false ∧
    PErr.indexError ≠ PErr.brokenPipeOutputEmpty :=
  ⟨rfl, rfl, by decide⟩

/-- C3 amended: calling `output()` on a Buffer stage fails exactly when
the queue is empty, and the failure is the unguarded `IndexError` of
`list.pop(0)` (not a Backpressure `BrokenPipeError`); a failed call
produces no successor state, so the queue is unchanged, and on a
non-empty queue the head is popped (FIFO). -/
theorem buffer_output_empty_index_error :
    ∀ l : List String,
      ((StrProc.buffer l).output.isOk = !l.isEmpty) ∧
      ((StrProc.buffer []).output = .error PErr.indexError) ∧
      PErr.indexError.is_backpressure = false ∧
      (∀ x t, l = x :: t → (StrProc.buffer l).output = .ok (x, StrProc.buffer t)) := by
  intro l
  refine ⟨?_, rfl, rfl, ?_⟩
  · cases l <;> rfl
  · intro x t h
    subst h
    rfl

theorem buffer_output_empty_index_error_witness :
    ((StrProc.buffer ["w"]).output.isOk = !(["w"] : List String).isEmpty) ∧
    ("w" :: ([] : List String) = "w" :: [] →
      (StrProc.buffer ["w"]).output = .ok ("w", StrProc.buffer [])) :=
  ⟨(buffer_output_empty_index_error ["w"]).1,
    (buffer_output_empty_index_error ["w"]).2.2.2 "w" [] ⟩

/-- C4 counterexample: a non-empty Buffer reports `has_output_default`,
whose `can_input()` predicate is false, so `state()` does not additionally
report CanInput in the non-empty case. -/
theorem buffer_state_counterexample :
    (StrProc.buffer ["a"]).state = StrProcState.has_output_default ∧
    (StrProc.buffer ["a"]).state.has_output = true ∧
    (StrProc.buffer ["a"]).state.can_input = false :=
  ⟨rfl, rfl, rfl⟩

/-- C4 amended: a Buffer stage `state()` reports `has_output` exactly when
the queue is non-empty and `can_input` exactly when it is empty — always
exactly one of the two, never both. -/
theorem buffer_state_characterization :
    ∀ l : List String,
      ((StrProc.buffer l).state.has_output = !l.isEmpty) ∧
      ((StrProc.buffer l).state.can_input = l.isEmpty) := by
  intro l
  cases l <;> exact ⟨rfl, rfl⟩

/-- C5: a fresh single-slot transit stage accepts a first item, storing
its transform; a second `input` without an intervening `output` fails with
the Backpressure `BrokenPipeError`, and the stage still holds the
transformed first item (the failed call produces no successor state). -/
theorem transit_double_input_backpressure :
    ∀ (f : String → String) (a b : String),
      (StrProc.transit f none).input a = .ok (StrProc.transit f (some (f a))) ∧
      (StrProc.transit f (some (f a))).input b = .error PErr.brokenPipeInputFull ∧
      PErr.brokenPipeInputFull.is_backpressure = true ∧
      (StrProc.transit f (some (f a))).items = [f a] :=
  fun _ _ _ => ⟨rfl, rfl, rfl, rfl⟩

/-- C6 counterexample: a pipeline whose tail has output and whose head can
accept input returns `has_output_and_can_input`, but that value fails the
`can_input()` predicate (value 1 < 100), while stage 0 reports
`can_input`; so `state()` does not report CanInput iff stage 0 does. -/
theorem pipeline_state_counterexample :
    plState pipeOps (mkPipe pipeOps [StrProc.buffer [], StrProc.buffer ["a"]]) =
      .ok StrProcState.has_output_and_can_input ∧
    StrProcState.has_output_and_can_input.can_input = false ∧
    (getO pipeOps (mkPipe pipeOps [StrProc.buffer [], StrProc.buffer ["a"]]) 0).state.can_input
      = true :=
  ⟨rfl, rfl, rfl⟩

/-- C6 amended: the pipeline `state()` is fully characterized by the tail
stage `has_output` report and the stage 0 `can_input` report: it returns
`has_output_and_can_input` when both hold (a value whose name encodes both
capabilities but whose `can_input()` predicate is false),
`has_output_default` when only the tail has output, `can_input_default`
when only stage 0 can input, and fails with the deadlock `BrokenPipeError`
when neither holds; in particular it returns a value (no error) exactly
when the tail has output or stage 0 can input, and the returned value
reports `has_output` iff the tail does. -/
theorem pipeline_state_characterization :
    ∀ ps : List StrProc,
      (plState pipeOps ps =
        (if (getO pipeOps ps (ps.length - 1)).state.has_output then
          .ok (if (getO pipeOps ps 0).state.can_input then
                StrProcState.has_output_and_can_input
              else StrProcState.has_output_default)
        else if (getO pipeOps ps 0).state.can_input then .ok StrProcState.can_input_default
        else .error PErr.brokenPipeDeadlock)) ∧
      ((plState pipeOps ps).isOk =
        ((getO pipeOps ps (ps.length - 1)).state.has_output ||
          (getO pipeOps ps 0).state.can_input)) := by
  intro ps
  refine ⟨plState_flat_eq ps, ?_⟩
  rw [plState_flat_eq ps]
  cases h1 : (getO pipeOps ps (ps.length - 1)).state.has_output <;>
    cases h2 : (getO pipeOps ps 0).state.can_input <;>
      simp [Except.isOk, Except.toBool]

/-- C7: from every reachable pipeline state, the drain triggered by a
successful stage 0 `input` never raises: every item hand-off the draining
algorithm performs targets a stage currently able to accept it, so the
Backpressure branch of the single-slot `input` is unreachable from within
draining. -/
theorem drain_input_never_backpressure (ps : List StrProc) (h : Reachable ps)
    (s : String) (st0 : StrProc)
    (h0 : (getO pipeOps ps 0).input s = .ok st0) :
    ∃ ps', str_pipe_process pipeOps (ps.set 0 st0) = .ok ps' ∧
      str_pipe_process pipeOps (ps.set 0 st0) ≠ .error PErr.brokenPipeInputFull := by
  obtain ⟨hne, hacc⟩ := reachable_facts ps h
  have hlenpos : 0 < ps.length := List.length_pos.mpr hne
  have hacc' : (getO pipeOps (ps.set 0 st0) ((ps.set 0 st0).length - 1)).accepts_any
      = true := by
    have hls : (ps.set 0 st0).length = ps.length := by simp [List.length_set]
    rw [hls]
    by_cases h1 : ps.length = 1
    · have h0eq : ps.length - 1 = 0 := by omega
      rw [h0eq, getO_set_self pipeOps ps 0 st0 (by omega),
        input_preserves_accepts _ _ _ h0]
      rw [h0eq] at hacc
      exact hacc
    · rw [getO_set_ne pipeOps ps 0 (ps.length - 1) st0 (by omega)]
      exact hacc
  obtain ⟨ps', h1, _⟩ := flat_str_pipe_total (ps.set 0 st0) hacc'
  refine ⟨ps', h1, ?_⟩
  intro hc
  rw [h1] at hc
  exact Except.noConfusion hc

theorem drain_input_never_backpressure_witness :
    Reachable (mkPipe pipeOps [StrProc.transit id none]) ∧
    ((getO pipeOps (mkPipe pipeOps [StrProc.transit id none]) 0).input "a" =
      .ok (StrProc.transit id (some "a"))) ∧
    ∃ ps', str_pipe_process pipeOps
        ((mkPipe pipeOps [StrProc.transit id none]).set 0 (StrProc.transit id (some "a"))) =
        .ok ps' ∧
      str_pipe_process pipeOps
        ((mkPipe pipeOps [StrProc.transit id none]).set 0 (StrProc.transit id (some "a"))) ≠
        .error PErr.brokenPipeInputFull :=
  ⟨Reachable.init _ (List.cons_ne_nil _ _), rfl,
    drain_input_never_backpressure _ (Reachable.init _ (List.cons_ne_nil _ _)) "a" _ rfl⟩

/-- C8: a pipeline built from a non-empty stage list has exactly the given
number of stages when the last given stage declares `is_infinity_input`,
and exactly one more stage otherwise, the appended tail stage being a
fresh Buffer. -/
theorem mkpipe_stage_count (given : List StrProc) (hne : given ≠ []) :
    (StrProcFlags.is_infinity_input ∈ (getO pipeOps given (given.length - 1)).class_flags →
      mkPipe pipeOps given = given ∧ (mkPipe pipeOps given).length = given.length) ∧
    (StrProcFlags.is_infinity_input ∉ (getO pipeOps given (given.length - 1)).class_flags →
      (mkPipe pipeOps given).length = given.length + 1 ∧
      getO pipeOps (mkPipe pipeOps given) ((mkPipe pipeOps given).length - 1) =
        StrProc.buffer []) := by
  constructor
  · intro hmem
    have heq : mkPipe pipeOps given = given := by
      simp [mkPipe, pipeOps_class_flags_eq, hmem]
    exact ⟨heq, by rw [heq]⟩
  · intro hmem
    have heq : mkPipe pipeOps given = given ++ [StrProc.buffer []] := by
      simp [mkPipe, pipeOps_class_flags_eq, pipeOps_newBuf_eq, hmem]
    rw [heq]
    refine ⟨by simp, ?_⟩
    have hlen : (given ++ [StrProc.buffer []]).length - 1 = given.length := by simp
    rw [hlen]
    have hg0 : getO pipeOps (given ++ [StrProc.buffer []]) (given.length + 0) =
        getO pipeOps [StrProc.buffer []] 0 :=
      getO_append_right pipeOps given [StrProc.buffer []] 0
    simpa using hg0

theorem mkpipe_stage_count_witness :
    (([StrProc.transit id none] : List StrProc) ≠ []) ∧
    (StrProcFlags.is_infinity_input ∉
      (getO pipeOps [StrProc.transit id none] 0).class_flags →
      (mkPipe pipeOps [StrProc.transit id none]).length = 1 + 1 ∧
      getO pipeOps (mkPipe pipeOps [StrProc.transit id none])
        ((mkPipe pipeOps [StrProc.transit id none]).length - 1) = StrProc.buffer []) :=
  ⟨List.cons_ne_nil _ _,
    (mkpipe_stage_count [StrProc.transit id none] (List.cons_ne_nil _ _)).2⟩

/-- C9: wrapping a fully-built pipeline as one stage inside a second
pipeline produces, for every input sequence, exactly the end-to-end output
sequence of the single pipeline built from the flattened concatenation of
both stage lists. -/
theorem nested_pipeline_flatten_equiv (pre post innerGiven : List StrProc)
    (xs : List String) (hinner : innerGiven ≠ [])
    (hfresh : ∀ st ∈ pre ++ innerGiven ++ post, st.items = []) :
    runPipe stage2Ops (mkPipe stage2Ops
        (pre.map Stage2.lift ++ [Stage2.pipe (mkPipe pipeOps innerGiven)] ++
          post.map Stage2.lift)) xs =
      runPipe pipeOps (mkPipe pipeOps (pre ++ mkPipe pipeOps innerGiven ++ post)) xs := by
  obtain ⟨hBne, hBinv, hBtacc, hBchain, hBfreshF⟩ :=
    mkPipe_facts pipeOps StrProc.items StrProc.tr (fun _ => True)
      (fun s => s.accepts_any = true) flat_laws innerGiven hinner (fun s _ => trivial)
  have hfreshInner : ∀ s ∈ innerGiven, s.items = [] := by
    intro s hs
    exact hfresh s (List.mem_append_left _ (List.mem_append_right _ hs))
  have hBfresh : ∀ s ∈ mkPipe pipeOps innerGiven, s.items = [] := hBfreshF hfreshInner
  have hBq : ∀ j, j + 1 < (mkPipe pipeOps innerGiven).length →
      (getO pipeOps (mkPipe pipeOps innerGiven) j).state.has_output = false := by
    intro j hj
    exact flat_items_nil_noout _ (hBfresh _ (getO_mem pipeOps _ j (by omega)))
  have hInvB : Stage2.Inv (.pipe (mkPipe pipeOps innerGiven)) := ⟨hBne, hBtacc, hBq⟩
  have hG2ne : pre.map Stage2.lift ++ [Stage2.pipe (mkPipe pipeOps innerGiven)] ++
      post.map Stage2.lift ≠ [] := by
    intro hc
    rcases List.append_eq_nil.mp hc with ⟨hc1, -⟩
    rcases List.append_eq_nil.mp hc1 with ⟨-, hc2⟩
    exact List.cons_ne_nil _ _ hc2
  have hG2inv : ∀ s ∈ pre.map Stage2.lift ++
      [Stage2.pipe (mkPipe pipeOps innerGiven)] ++ post.map Stage2.lift, Stage2.Inv s := by
    intro s hs
    rcases List.mem_append.mp hs with hs1 | hs2
    · rcases List.mem_append.mp hs1 with hsa | hsb
      · obtain ⟨st, -, rfl⟩ := List.mem_map.mp hsa
        exact trivial
      · rw [List.mem_singleton.mp hsb]
        exact hInvB
    · obtain ⟨st, -, rfl⟩ := List.mem_map.mp hs2
      exact trivial
  have hG2fresh : ∀ s ∈ pre.map Stage2.lift ++
      [Stage2.pipe (mkPipe pipeOps innerGiven)] ++ post.map Stage2.lift,
      Stage2.items s = [] := by
    intro s hs
    rcases List.mem_append.mp hs with hs1 | hs2
    · rcases List.mem_append.mp hs1 with hsa | hsb
      · obtain ⟨st, hstm, rfl⟩ := List.mem_map.mp hsa
        exact hfresh st (List.mem_append_left _ (List.mem_append_left _ hstm))
      · rw [List.mem_singleton.mp hsb]
        exact contents_nil_of_items_nil _ _ _ hBfresh
    · obtain ⟨st, hstm, rfl⟩ := List.mem_map.mp hs2
      exact hfresh st (List.mem_append_right _ hstm)
  obtain ⟨h2ne, h2inv, h2tacc, h2chain, h2freshF⟩ :=
    mkPipe_facts stage2Ops Stage2.items Stage2.tr Stage2.Inv Stage2.TailAcc stage2_laws
      _ hG2ne hG2inv
  have h2run := runPipe_total stage2Ops Stage2.items Stage2.tr Stage2.Inv Stage2.TailAcc
    stage2_laws _ xs h2inv h2tacc h2ne (h2freshF hG2fresh)
  have hGFne : pre ++ mkPipe pipeOps innerGiven ++ post ≠ [] := by
    intro hc
    rcases List.append_eq_nil.mp hc with ⟨hc1, -⟩
    rcases List.append_eq_nil.mp hc1 with ⟨-, hc2⟩
    exact hBne hc2
  have hGFfresh : ∀ s ∈ pre ++ mkPipe pipeOps innerGiven ++ post, s.items = [] := by
    intro s hs
    rcases List.mem_append.mp hs with hs1 | hs2
    · rcases List.mem_append.mp hs1 with hsa | hsb
      · exact hfresh s (List.mem_append_left _ (List.mem_append_left _ hsa))
      · exact hBfresh s hsb
    · exact hfresh s (List.mem_append_right _ hs2)
  obtain ⟨hFne, hFinv, hFtacc, hFchain, hFfreshF⟩ :=
    mkPipe_facts pipeOps StrProc.items StrProc.tr (fun _ => True)
      (fun s => s.accepts_any = true) flat_laws _ hGFne (fun s _ => trivial)
  have hFrun := runPipe_total pipeOps StrProc.items StrProc.tr (fun _ => True)
    (fun s => s.accepts_any = true) flat_laws _ xs hFinv hFtacc hFne (hFfreshF hGFfresh)
  rw [h2run, hFrun]
  congr 1
  refine filterMap_congr_fun _ _ ?_ xs
  intro s
  rw [h2chain s, hFchain s, chain2_nested]

theorem nested_pipeline_flatten_equiv_witness :
    (([StrProc.transit upperFn none] : List StrProc) ≠ [] ∧
      (∀ st ∈ ([] : List StrProc) ++ [StrProc.transit upperFn none] ++ [],
        st.items = [])) ∧
    runPipe stage2Ops (mkPipe stage2Ops
        (([] : List StrProc).map Stage2.lift ++
          [Stage2.pipe (mkPipe pipeOps [StrProc.transit upperFn none])] ++
          ([] : List StrProc).map Stage2.lift)) ["hey"] =
      runPipe pipeOps (mkPipe pipeOps
        (([] : List StrProc) ++ mkPipe pipeOps [StrProc.transit upperFn none] ++ [])) ["hey"] :=
  ⟨⟨List.cons_ne_nil _ _, by
      intro st hst
      simp only [List.nil_append, List.append_nil] at hst
      obtain rfl := List.mem_singleton.mp hst
      rfl⟩,
    nested_pipeline_flatten_equiv [] [] [StrProc.transit upperFn none] ["hey"]
      (List.cons_ne_nil _ _) (by
        intro st hst
        simp only [List.nil_append, List.append_nil] at hst
        obtain rfl := List.mem_singleton.mp hst
        rfl)⟩

/-- C10: the `has_output()` and `can_input()` predicates partition the
readiness enum (each value satisfies exactly one of them, the threshold
being value 100); even `has_output_and_can_input` (value 1) satisfies
`has_output()` but not `can_input()`, so the "reports neither" error
condition is unrepresentable, and every bare transit or buffer stage
reports exactly one of the two after any sequence of operations. -/
theorem state_predicates_partition :
    (∀ v : StrProcState, v.can_input = !v.has_output) ∧
    StrProcState.has_output_and_can_input.has_output = true ∧
    StrProcState.has_output_and_can_input.can_input = false ∧
    (∀ st : StrProc, st.state.can_input = !st.state.has_output) := by
  have h : ∀ v : StrProcState, v.can_input = !v.has_output := by
    intro v
    cases v <;> rfl
  exact ⟨h, rfl, rfl, fun st => h st.state⟩
